import Mathlib

/-!
# Verification development for `cosier/cast`

The repository holds two artifacts:

* `example.c`: a demonstration program printing the primes between two bounds;
* `sample.h`: an excerpt of the Nuklear immediate-mode GUI header (declarations of the
  context / input / draw-command API and a handful of scalar helper routines).

Both are embedded shallowly: C `int` values are mathematical integers (`example.c`
increments `low` only while `low < high` and `i` only while `i <= low / 2`, so no increment
leaves the `int` range), loops are functions with an explicit iteration budget that return
`none` when the budget runs out, and standard output is a record of what was printed.
Values of type `nk_uint` are natural numbers reduced modulo `2 ^ 32` where the source can
wrap, and `float` values are exact numbers (rationals, or reals where a function is
compared with the sine or cosine). Functions of `sample.h` that the excerpt only declares
are modelled from the specification and say so in their comment.
-/

set_option linter.unusedVariables false

/-! ## `example.c` -/

namespace Example

/-- Structure for managing prime input boundaries (`struct prime_input`). -/
structure prime_input where
  low : Int
  high : Int
  deriving DecidableEq, Repr

/-- What `determine_primes` writes to standard output: the text
`Prime numbers between %d and %d are: ` with its two arguments, followed by the numbers
printed by the `printf("%d ", low)` calls, in the order they are printed. -/
structure Printed where
  header_low : Int
  header_high : Int
  numbers : List Int
  deriving DecidableEq, Repr

/-- The trial-division loop of `determine_primes`,
`for (i = 2; i <= low / 2; ++i) { if (low % i == 0) { flag = 1; break; } }`,
entered with the current `i` and `flag`; the result is the value of `flag` on exit.
`/` and `%` are C operators (truncation towards zero). -/
def trial_loop : Nat → Int → Int → Int → Option Int
  | 0, _, _, _ => none
  | fuel + 1, low, i, flag =>
    if i ≤ Int.tdiv low 2 then
      if Int.tmod low i = 0 then some 1
      else trial_loop fuel low (i + 1) flag
    else some flag

/-- The search loop of `determine_primes`,
`while (low < high) { flag = 0; for (...) {...} if (flag == 0) printf("%d ", low); ++low; }`.
The last argument accumulates the numbers printed so far. -/
def search_loop : Nat → Int → Int → List Int → Option (List Int)
  | 0, _, _, _ => none
  | fuel + 1, low, high, out =>
    if low < high then
      match trial_loop fuel low 2 0 with
      | none => none
      | some flag =>
        search_loop fuel (low + 1) high (if flag = 0 then out ++ [low] else out)
    else some out

/-- The function `determine_primes(prime_input input)`. Its body never mentions `input`;
it works on the variables `low` and `high`, which are not declared in the function and are
therefore taken as the values those names have when the body runs. -/
def determine_primes (fuel : Nat) (input : prime_input) (low high : Int) : Option Printed :=
  let temp := low
  let low := if temp > high then high else low
  let high := if temp > high then temp else high
  match search_loop fuel low high [] with
  | none => none
  | some numbers => some ⟨low, high, numbers⟩

/-- The function `main`: after the prompt `Enter two numbers(intevals): ` it reads two
numbers into `input.low` and `input.high` and calls `determine_primes(input)`. Its own
locals `low` and `high` are never assigned; `low` and `high` below are the values that
`determine_primes` finds under those names. -/
def main (fuel : Nat) (scanned_low scanned_high : Int) (low high : Int) : Option Printed :=
  let input : prime_input := ⟨scanned_low, scanned_high⟩
  determine_primes fuel input low high

/-- The list the file header promises, in the words of the specification: `l` holds exactly
the prime numbers `p` with `min low high ≤ p < max low high`, in increasing order. -/
def prime_list_spec (low high : Int) (l : List Int) : Prop :=
  l.Sorted (· < ·) ∧ ∀ p : Int, p ∈ l ↔ (min low high ≤ p ∧ p < max low high ∧ Nat.Prime p.toNat)

/-- The `count` consecutive integers from `start` on, in increasing order. -/
def int_range : Nat → Int → List Int
  | 0, _ => []
  | count + 1, start => start :: int_range count (start + 1)

/-- The largest value of a 32-bit `int`. -/
def INT_MAX : Int := 2147483647

/-- The smallest value of a 32-bit `int`. -/
def INT_MIN : Int := -2147483648

/-- What a counted run of the trial-division loop reports: the value of `flag` on exit, how
many times the loop body ran, and whether a `++i` produced a value above `INT_MAX`. -/
structure trial_report where
  flag : Int
  iterations : Nat
  overflow : Bool
  deriving DecidableEq, Repr

/-- The trial-division loop of `determine_primes` (see `trial_loop`), counting the runs of
its body and watching `++i`. -/
def trial_loop_count : Nat → Int → Int → Int → Nat → Bool → Option trial_report
  | 0, _, _, _, _, _ => none
  | fuel + 1, low, i, flag, iterations, overflow =>
    if i ≤ Int.tdiv low 2 then
      if Int.tmod low i = 0 then some ⟨1, iterations + 1, overflow⟩
      else trial_loop_count fuel low (i + 1) flag (iterations + 1)
        (overflow || decide (INT_MAX < i + 1))
    else some ⟨flag, iterations, overflow⟩

/-- What a counted run of the search loop reports: the numbers printed, for every run of
the loop body the value of `low` with the number of runs of the inner loop body, and
whether a `++i` or a `++low` produced a value above `INT_MAX`. -/
structure search_report where
  numbers : List Int
  inner : List (Int × Nat)
  overflow : Bool
  deriving DecidableEq, Repr

/-- The search loop of `determine_primes` (see `search_loop`), counting the runs of both
loop bodies and watching `++i` and `++low`. -/
def search_loop_count : Nat → Int → Int → search_report → Option search_report
  | 0, _, _, _ => none
  | fuel + 1, low, high, report =>
    if low < high then
      match trial_loop_count fuel low 2 0 0 false with
      | none => none
      | some t =>
        search_loop_count fuel (low + 1) high
          { numbers := if t.flag = 0 then report.numbers ++ [low] else report.numbers
            inner := report.inner ++ [(low, t.iterations)]
            overflow := report.overflow || t.overflow || decide (INT_MAX < low + 1) }
    else some report

/-- The function `determine_primes` (see `determine_primes`) with counted loops: what is
printed, and the report of the search loop. -/
def determine_primes_count (fuel : Nat) (input : prime_input) (low high : Int) :
    Option (Printed × search_report) :=
  let temp := low
  let low := if temp > high then high else low
  let high := if temp > high then temp else high
  match search_loop_count fuel low high ⟨[], [], false⟩ with
  | none => none
  | some report => some (⟨low, high, report.numbers⟩, report)

end Example

/-! ## `sample.h` -/

namespace Nuklear

/-! ### Conversion result flags -/

/-- Modelled from the spec: the macro `NK_FLAG` is used by `enum nk_convert_result` but its
definition is not part of the header excerpt. The conversion result is a bit-flag word, each
failure one bit: `NK_FLAG(x) = 1 << x`. -/
def NK_FLAG (x : Nat) : Nat := 1 <<< x

/-- The enumeration `enum nk_convert_result`. -/
inductive nk_convert_result where
  | NK_CONVERT_SUCCESS
  | NK_CONVERT_INVALID_PARAM
  | NK_CONVERT_COMMAND_BUFFER_FULL
  | NK_CONVERT_VERTEX_BUFFER_FULL
  | NK_CONVERT_ELEMENT_BUFFER_FULL
  deriving DecidableEq, Repr

/-- The integer value of each enumerator of `enum nk_convert_result`. -/
def nk_convert_result.value : nk_convert_result → Nat
  | NK_CONVERT_SUCCESS => 0
  | NK_CONVERT_INVALID_PARAM => 1
  | NK_CONVERT_COMMAND_BUFFER_FULL => NK_FLAG 1
  | NK_CONVERT_VERTEX_BUFFER_FULL => NK_FLAG 2
  | NK_CONVERT_ELEMENT_BUFFER_FULL => NK_FLAG 3

/-- The `nk_flags` word obtained by setting, one after the other, every result of `S`
(bitwise OR, starting from `NK_CONVERT_SUCCESS`). -/
def nk_convert_flags (S : List nk_convert_result) : Nat :=
  S.foldl (fun acc r => acc ||| r.value) nk_convert_result.NK_CONVERT_SUCCESS.value

/-! ### The iteration macro -/

/-- The loop of the macro
`#define nk_foreach(c, ctx) for((c) = nk__begin(ctx); (c) != 0; (c) = nk__next(ctx,c))`
once `c` has been initialised. A command pointer is a natural number, `0` the null pointer;
`body` is the statement under the macro, acting on the caller's state `σ` with the current
`c`. -/
def nk_foreach_loop {Ctx σ : Type} (next_cmd : Ctx → Nat → Nat) (ctx : Ctx)
    (body : σ → Nat → σ) : Nat → Nat → σ → Option σ
  | 0, _, _ => none
  | fuel + 1, c, s =>
    if c ≠ 0 then nk_foreach_loop next_cmd ctx body fuel (next_cmd ctx c) (body s c)
    else some s

/-- The macro `nk_foreach(c, ctx)` over arbitrary `nk__begin` / `nk__next` functions. -/
def nk_foreach {Ctx σ : Type} (first_cmd : Ctx → Nat) (next_cmd : Ctx → Nat → Nat) (ctx : Ctx)
    (body : σ → Nat → σ) (fuel : Nat) (s : σ) : Option σ :=
  nk_foreach_loop next_cmd ctx body fuel (first_cmd ctx) s

/-- The chain of the iteration contract, as the specification words it:
`c0 = nk__begin(ctx)`, `c(k+1) = nk__next(ctx, c(k))`. -/
def nk_chain {Ctx : Type} (first_cmd : Ctx → Nat) (next_cmd : Ctx → Nat → Nat) (ctx : Ctx) :
    Nat → Nat
  | 0 => first_cmd ctx
  | k + 1 => next_cmd ctx (nk_chain first_cmd next_cmd ctx k)

/-! ### Vectors -/

/-- The type `struct nk_vec2`; `float` fields are exact rationals. -/
structure struct_nk_vec2 where
  x : ℚ
  y : ℚ
  deriving DecidableEq, Repr

/-- The function `nk_vec2(float x, float y)`. -/
def nk_vec2 (x y : ℚ) : struct_nk_vec2 :=
  { x := x, y := y }

/-! ### Scalar helpers -/

/-- The function `nk_round_up_pow2(nk_uint v)` on 32-bit unsigned values: `v--` and `v++`
wrap modulo `2 ^ 32`; the shifts and ORs of a 32-bit value stay within 32 bits. -/
def nk_round_up_pow2 (v : Nat) : Nat :=
  let v := (v + 2 ^ 32 - 1) % 2 ^ 32
  let v := v ||| (v >>> 1)
  let v := v ||| (v >>> 2)
  let v := v ||| (v >>> 4)
  let v := v ||| (v >>> 8)
  let v := v ||| (v >>> 16)
  let v := (v + 1) % 2 ^ 32
  v

/-- The IEEE-754 single operations `nk_inv_sqrt` relies on, left abstract: the bit pattern
of a float and the float of a bit pattern (the two views of the union `conv`), the product
and the difference of two floats, and the constants `0.5f` and `1.5f`. -/
structure float_ops (F : Type) where
  bits : F → Nat
  of_bits : Nat → F
  mul : F → F → F
  sub : F → F → F
  half : F
  threehalfs : F

/-- The value assigned to `conv.i` in `nk_inv_sqrt`, `0x5f375A84 - (conv.i >> 1)`, for the
32-bit pattern `i`; the subtraction of `nk_uint` values wraps modulo `2 ^ 32`. -/
def nk_inv_sqrt_seed (i : Nat) : Nat :=
  (0x5f375A84 + 2 ^ 32 - (i >>> 1) % 2 ^ 32) % 2 ^ 32

/-- The function `nk_inv_sqrt(float number)` over abstract float operations. -/
def nk_inv_sqrt {F : Type} (ops : float_ops F) (number : F) : F :=
  let threehalfs := ops.threehalfs
  let x2 := ops.mul number ops.half
  let i := nk_inv_sqrt_seed (ops.bits number)
  let f := ops.of_bits i
  ops.mul f (ops.sub threehalfs (ops.mul (ops.mul x2 f) f))

/-- The function `nk_sqrt(float x)` over abstract float operations. -/
def nk_sqrt {F : Type} (ops : float_ops F) (x : F) : F :=
  ops.mul x (nk_inv_sqrt ops x)

/-- The sign bit of a 32-bit pattern read as an IEEE-754 single: bit 31. -/
def float_sign (bits : Nat) : Nat := (bits >>> 31) % 2

/-- The exponent field of a 32-bit pattern read as an IEEE-754 single: bits 23 to 30. -/
def float_exponent (bits : Nat) : Nat := (bits >>> 23) % 256

/-- A 32-bit pattern is that of a positive, finite, normal IEEE-754 single when its sign bit
is 0 and its exponent field is neither 0 (zero, subnormal) nor 255 (infinity, NaN). -/
def float_positive_normal (bits : Nat) : Prop :=
  float_sign bits = 0 ∧ float_exponent bits ≠ 0 ∧ float_exponent bits ≠ 255

/-- The function `nk_sin(float x)`, with the constants as the source writes them; `float`
values are exact numbers of a field (the rationals to evaluate, the reals to compare with
the sine). -/
def nk_sin {α : Type} [Field α] (x : α) : α :=
  let a0 : α := 1.91059300966915117e-31
  let a1 : α := 1.00086760103908896
  let a2 : α := -1.21276126894734565e-2
  let a3 : α := -1.38078780785773762e-1
  let a4 : α := -2.67353392911981221e-2
  let a5 : α := 2.08026600266304389e-2
  let a6 : α := -3.03996055049204407e-3
  let a7 : α := 1.38235642404333740e-4
  a0 + x*(a1 + x*(a2 + x*(a3 + x*(a4 + x*(a5 + x*(a6 + x*a7))))))

/-- The function `nk_cos(float x)`, with the constants as the source writes them; `float`
values are exact numbers of a field. -/
def nk_cos {α : Type} [Field α] (x : α) : α :=
  let a0 : α := 1.00238601909309722
  let a1 : α := -3.81919947353040024e-2
  let a2 : α := -3.94382342128062756e-1
  let a3 : α := -1.18134036025221444e-1
  let a4 : α := 1.07123798512170878e-1
  let a5 : α := -1.86637164165180873e-2
  let a6 : α := 9.90140908664079833e-4
  let a7 : α := -5.23022132118824778e-14
  a0 + x*(a1 + x*(a2 + x*(a3 + x*(a4 + x*(a5 + x*(a6 + x*a7))))))

/-- The value at `x` of the polynomial with rational coefficients `p`, lowest degree first,
by Horner's rule. -/
def poly_eval {α : Type} [DivisionRing α] : List ℚ → α → α
  | [], _ => 0
  | a :: p, x => (a : α) + x * poly_eval p x

/-- The constants `a0`, ..., `a7` of `nk_sin`. -/
def nk_sin_coeffs : List ℚ :=
  [1.91059300966915117e-31, 1.00086760103908896, -1.21276126894734565e-2,
   -1.38078780785773762e-1, -2.67353392911981221e-2, 2.08026600266304389e-2,
   -3.03996055049204407e-3, 1.38235642404333740e-4]

/-- The constants `a0`, ..., `a7` of `nk_cos`. -/
def nk_cos_coeffs : List ℚ :=
  [1.00238601909309722, -3.81919947353040024e-2, -3.94382342128062756e-1,
   -1.18134036025221444e-1, 1.07123798512170878e-1, -1.86637164165180873e-2,
   9.90140908664079833e-4, -5.23022132118824778e-14]

/-- The first `n` terms of the Taylor series of the sine at 0, as a polynomial:
`x - x^3/3! + x^5/5! - ...`. -/
def sin_coeffs : Nat → List ℚ
  | 0 => []
  | n + 1 => sin_coeffs n ++ [0, (-1) ^ n / ((2 * n + 1).factorial : ℚ)]

/-- The first `n` terms of the Taylor series of the cosine at 0, as a polynomial:
`1 - x^2/2! + x^4/4! - ...`. -/
def cos_coeffs : Nat → List ℚ
  | 0 => []
  | n + 1 => cos_coeffs n ++ [(-1) ^ n / ((2 * n).factorial : ℚ), 0]

/-- The sum of two polynomials. -/
def poly_add : List ℚ → List ℚ → List ℚ
  | [], q => q
  | p, [] => p
  | a :: p, b :: q => (a + b) :: poly_add p q

/-- The product of a polynomial with a number. -/
def poly_scale (c : ℚ) (p : List ℚ) : List ℚ := p.map (fun a => c * a)

/-- The polynomial `p` recentred at `c`: the coefficients of `t ↦ p (t + c)`. -/
def poly_shift : List ℚ → ℚ → List ℚ
  | [], _ => []
  | a :: p, c => poly_add (a :: poly_shift p c) (poly_scale c (poly_shift p c))

/-- A bound on the absolute value of `p` on `[-r, r]`: the sum of `|p_k| r^k`. -/
def poly_abs_bound : List ℚ → ℚ → ℚ
  | [], _ => 0
  | a :: p, r => |a| + r * poly_abs_bound p r

/-- A sufficient test for `p` to be positive on `[c - r, c + r]`: recentred at `c`, its
constant term exceeds the bound on the rest. -/
def poly_positive_near (p : List ℚ) (c r : ℚ) : Bool :=
  match poly_shift p c with
  | [] => false
  | a :: s => decide (0 < a - r * poly_abs_bound s r)

/-- The test `poly_positive_near` on each of `n` adjacent intervals of width `w` from `a`
on. -/
def poly_positive_cover (p : List ℚ) (w : ℚ) : Nat → ℚ → Bool
  | 0, _ => true
  | n + 1, a => poly_positive_near p (a + w / 2) (w / 2) && poly_positive_cover p w n (a + w)

/-- The type `struct nk_rect`; `float` fields are exact rationals. -/
structure struct_nk_rect where
  x : ℚ
  y : ℚ
  w : ℚ
  h : ℚ
  deriving DecidableEq, Repr

/-- The function `nk_rect(float x, float y, float w, float h)`. -/
def nk_rect (x y w h : ℚ) : struct_nk_rect :=
  { x := x, y := y, w := w, h := h }

/-- Modelled from the spec: the macro `NK_MAX` is used by `nk_shrink_rect` and
`nk_pad_rect` but its definition is not part of the header excerpt:
`NK_MAX(a, b) = a < b ? b : a`. -/
def NK_MAX (a b : ℚ) : ℚ := if a < b then b else a

/-- The function `nk_shrink_rect(struct nk_rect r, float amount)`. -/
def nk_shrink_rect (r : struct_nk_rect) (amount : ℚ) : struct_nk_rect :=
  let r := { r with w := NK_MAX r.w (2 * amount) }
  let r := { r with h := NK_MAX r.h (2 * amount) }
  { x := r.x + amount
    y := r.y + amount
    w := r.w - 2 * amount
    h := r.h - 2 * amount }

/-- The function `nk_pad_rect(struct nk_rect r, struct nk_vec2 pad)`. -/
def nk_pad_rect (r : struct_nk_rect) (pad : struct_nk_vec2) : struct_nk_rect :=
  let r := { r with w := NK_MAX r.w (2 * pad.x) }
  let r := { r with h := NK_MAX r.h (2 * pad.y) }
  let r := { r with x := r.x + pad.x }
  let r := { r with y := r.y + pad.y }
  let r := { r with w := r.w - 2 * pad.x }
  let r := { r with h := r.h - 2 * pad.y }
  r

/-! ### Input mirror -/

/-- The enumeration `enum nk_keys`. -/
inductive nk_keys where
  | NK_KEY_NONE
  | NK_KEY_SHIFT
  | NK_KEY_CTRL
  | NK_KEY_DEL
  | NK_KEY_ENTER
  | NK_KEY_TAB
  | NK_KEY_BACKSPACE
  | NK_KEY_COPY
  | NK_KEY_CUT
  | NK_KEY_PASTE
  | NK_KEY_UP
  | NK_KEY_DOWN
  | NK_KEY_LEFT
  | NK_KEY_RIGHT
  | NK_KEY_TEXT_INSERT_MODE
  | NK_KEY_TEXT_REPLACE_MODE
  | NK_KEY_TEXT_RESET_MODE
  | NK_KEY_TEXT_LINE_START
  | NK_KEY_TEXT_LINE_END
  | NK_KEY_TEXT_START
  | NK_KEY_TEXT_END
  | NK_KEY_TEXT_UNDO
  | NK_KEY_TEXT_REDO
  | NK_KEY_TEXT_SELECT_ALL
  | NK_KEY_TEXT_WORD_LEFT
  | NK_KEY_TEXT_WORD_RIGHT
  | NK_KEY_SCROLL_START
  | NK_KEY_SCROLL_END
  | NK_KEY_SCROLL_DOWN
  | NK_KEY_SCROLL_UP
  | NK_KEY_MAX
  deriving DecidableEq, Repr

/-- The enumeration `enum nk_buttons`. -/
inductive nk_buttons where
  | NK_BUTTON_LEFT
  | NK_BUTTON_MIDDLE
  | NK_BUTTON_RIGHT
  | NK_BUTTON_DOUBLE
  | NK_BUTTON_MAX
  deriving DecidableEq, Repr

/-- Modelled from the spec: `struct nk_key` is not in the header excerpt. Section 3 gives
each key a boolean state with a down/up transition flag; `clicked` counts the transitions
seen since the frame began, the flag being `0 < clicked`. -/
structure nk_key where
  down : Bool
  clicked : Nat
  deriving DecidableEq, Repr

/-- Modelled from the spec: `struct nk_mouse_button` is not in the header excerpt. Section 3
gives each button a boolean state plus click coordinates. -/
structure nk_mouse_button where
  down : Bool
  clicked : Nat
  clicked_pos : Int × Int
  deriving DecidableEq, Repr

/-- Modelled from the spec: `struct nk_input` is not in the header excerpt. Section 3 lists
the input snapshot: mouse position (current and previous, to derive the delta), per-key
state, per-button state, accumulated scroll delta and a bounded text-input byte buffer. -/
structure nk_input where
  mouse_pos : Int × Int
  mouse_prev : Int × Int
  mouse_delta : Int × Int
  scroll_delta : struct_nk_vec2
  keys : nk_keys → nk_key
  buttons : nk_buttons → nk_mouse_button
  text : List Nat

/-- Modelled from the spec: the states section 4.2 tells apart for a key once the frame has
ended (down-this-frame vs. held vs. released), and idle for a key that is up and stayed up. -/
inductive nk_key_report where
  | idle
  | down_this_frame
  | held
  | released
  deriving DecidableEq, Repr

/-- Modelled from the spec: the classification of section 4.2 (down-this-frame vs. held vs.
released), read off the boolean state and the transition flag of a key. -/
def nk_key.report (k : nk_key) : nk_key_report :=
  if k.down then (if 0 < k.clicked then .down_this_frame else .held)
  else (if 0 < k.clicked then .released else .idle)

/-! ### Draw commands and the context -/

/-- Modelled from the spec: `enum nk_command_type` is not in the header excerpt. Section 3
names the variants of a draw command. -/
inductive nk_command_type where
  | NK_COMMAND_SCISSOR
  | NK_COMMAND_LINE
  | NK_COMMAND_RECT
  | NK_COMMAND_TRIANGLE
  | NK_COMMAND_CIRCLE
  | NK_COMMAND_TEXT
  | NK_COMMAND_IMAGE
  deriving DecidableEq, Repr

/-- Modelled from the spec: `struct nk_command` is not in the header excerpt. Section 3: a
tagged variant carrying geometry, color and optional user-supplied tag data. -/
structure nk_command where
  type : nk_command_type
  geometry : List Int
  color : Nat
  userdata : Option Nat
  deriving DecidableEq, Repr

/-- Modelled from the spec: the three mutually exclusive memory-provisioning modes of
section 3; a fixed block carries its size in bytes. -/
inductive nk_allocation_mode where
  | default_heap
  | fixed_block (size : Nat)
  | custom_callbacks
  deriving DecidableEq, Repr

/-- Modelled from the spec: `struct nk_context` is not in the header excerpt. Section 3: the
context holds one input snapshot, one draw-command queue and an allocator handle;
`allocated` is the number of bytes of the command arena in use and `scratch` the per-frame
scratch allocations of section 4.1. The state of the queue is its commands together with
`full`, the full-buffer condition of section 4.3: an append was rejected because the fixed
block was exhausted. -/
structure nk_context where
  input : nk_input
  allocator : nk_allocation_mode
  queue : List nk_command
  allocated : Nat
  scratch : Nat
  full : Bool

/-- Modelled from the spec: the body of `nk_init_fixed` is not in the header excerpt.
Section 3: the context is created by one initialization call; in fixed-block mode it draws
from a single preallocated block of `size` bytes. The fresh context has an empty command
queue and a zeroed input snapshot. -/
def nk_init_fixed (size : Nat) : nk_context :=
  { input :=
    { mouse_pos := (0, 0)
      mouse_prev := (0, 0)
      mouse_delta := (0, 0)
      scroll_delta := nk_vec2 0 0
      keys := fun _ => { down := false, clicked := 0 }
      buttons := fun _ => { down := false, clicked := 0, clicked_pos := (0, 0) }
      text := [] }
    allocator := .fixed_block size
    queue := []
    allocated := 0
    scratch := 0
    full := false }

/-- Modelled from the spec: a program that holds converted output. Section 4.4: a
conversion fills a command, a vertex and an index buffer supplied by the caller; the
program holds their contents next to the context they were converted from. -/
structure nk_program where
  ctx : nk_context
  cmds : List Nat
  vertices : List Nat
  elements : List Nat

/-- Modelled from the spec: the calls of the input surface (section 6) that may be issued
between `nk_input_begin` and `nk_input_end`, one constructor per declared function. -/
inductive nk_input_call where
  | motion (x y : Int)
  | key (key : nk_keys) (down : Bool)
  | button (button : nk_buttons) (x y : Int) (down : Bool)
  | scroll (val : struct_nk_vec2)
  | char (c : Nat)
  | glyph (glyph : List Nat)
  | unicode (rune : Nat)
  deriving DecidableEq, Repr

/-- Modelled from the spec: the body of `nk_input_begin` is not in the header excerpt.
Section 4.2: begin resets the transient fields (the button and key edge flags of the
previous frame, the scroll accumulator) and snapshots the current pointer position as
the previous one; the header comment adds the text buffer and the movement to what is
reset. -/
def nk_input_begin (ctx : nk_context) : nk_context :=
  { ctx with input :=
    { ctx.input with
      mouse_prev := ctx.input.mouse_pos
      mouse_delta := (0, 0)
      scroll_delta := nk_vec2 0 0
      keys := fun k => { ctx.input.keys k with clicked := 0 }
      buttons := fun b => { ctx.input.buttons b with clicked := 0 }
      text := [] } }

/-- Modelled from the spec: the body of `nk_input_motion` is not in the header excerpt.
Section 4.2: a call made while collecting overwrites its field of the snapshot, the last
write winning; a motion call writes the current pointer position. -/
def nk_input_motion (ctx : nk_context) (x y : Int) : nk_context :=
  { ctx with input := { ctx.input with mouse_pos := (x, y) } }

/-- Modelled from the spec: the body of `nk_input_key` is not in the header excerpt.
Sections 3 and 4.2: the call overwrites the boolean state of the key, and a change of
that state is a transition. -/
def nk_input_key (ctx : nk_context) (key : nk_keys) (down : Bool) : nk_context :=
  let old := ctx.input.keys key
  let new : nk_key :=
    { down := down, clicked := if old.down ≠ down then old.clicked + 1 else old.clicked }
  { ctx with input :=
    { ctx.input with keys := fun k => if k = key then new else ctx.input.keys k } }

/-- Modelled from the spec: the body of `nk_input_button` is not in the header excerpt.
Sections 3 and 4.2: the call overwrites the boolean state of the button, a change of that
state is a transition, and the coordinates of the click are recorded. -/
def nk_input_button (ctx : nk_context) (button : nk_buttons) (x y : Int) (down : Bool) :
    nk_context :=
  let old := ctx.input.buttons button
  let new : nk_mouse_button :=
    { down := down
      clicked := if old.down ≠ down then old.clicked + 1 else old.clicked
      clicked_pos := (x, y) }
  { ctx with input :=
    { ctx.input with buttons := fun b => if b = button then new else ctx.input.buttons b } }

/-- Modelled from the spec: the body of `nk_input_scroll` is not in the header excerpt.
Section 3: the scroll delta is accumulated over the frame. -/
def nk_input_scroll (ctx : nk_context) (val : struct_nk_vec2) : nk_context :=
  { ctx with input :=
    { ctx.input with
      scroll_delta :=
        nk_vec2 (ctx.input.scroll_delta.x + val.x) (ctx.input.scroll_delta.y + val.y) } }

/-- Modelled from the spec: the text functions share one append step whose body is not in
the header excerpt. Section 4.2: text bytes are appended up to the fixed capacity, the
excess silently dropped. `NK_INPUT_MAX` is the compile-time capacity, whose value the
excerpt does not give. -/
def nk_input_text_append (NK_INPUT_MAX : Nat) (ctx : nk_context) (bytes : List Nat) :
    nk_context :=
  { ctx with input :=
    { ctx.input with
      text := ctx.input.text ++ bytes.take (NK_INPUT_MAX - ctx.input.text.length) } }

/-- Modelled from the spec: `nk_input_char` adds one byte to the text buffer. -/
def nk_input_char (NK_INPUT_MAX : Nat) (ctx : nk_context) (c : Nat) : nk_context :=
  nk_input_text_append NK_INPUT_MAX ctx [c]

/-- Modelled from the spec: `nk_input_glyph` adds the bytes of one multi-byte sequence to
the text buffer. -/
def nk_input_glyph (NK_INPUT_MAX : Nat) (ctx : nk_context) (glyph : List Nat) : nk_context :=
  nk_input_text_append NK_INPUT_MAX ctx glyph

/-- Modelled from the spec: `nk_input_unicode` converts a rune into UTF-8 and adds the
result to the text buffer. The encoder `nk_utf_encode` is not in the header excerpt and is
a parameter. -/
def nk_input_unicode (NK_INPUT_MAX : Nat) (nk_utf_encode : Nat → List Nat) (ctx : nk_context)
    (rune : Nat) : nk_context :=
  nk_input_glyph NK_INPUT_MAX ctx (nk_utf_encode rune)

/-- Modelled from the spec: the body of `nk_input_end` is not in the header excerpt.
Section 4.2: end computes the motion delta of the frame, current minus previous. -/
def nk_input_end (ctx : nk_context) : nk_context :=
  { ctx with input :=
    { ctx.input with
      mouse_delta :=
        (ctx.input.mouse_pos.1 - ctx.input.mouse_prev.1,
         ctx.input.mouse_pos.2 - ctx.input.mouse_prev.2) } }

/-- One call of the input surface, dispatched to its function. -/
def nk_input_call.run (NK_INPUT_MAX : Nat) (nk_utf_encode : Nat → List Nat)
    (ctx : nk_context) : nk_input_call → nk_context
  | .motion x y => nk_input_motion ctx x y
  | .key k down => nk_input_key ctx k down
  | .button b x y down => nk_input_button ctx b x y down
  | .scroll val => nk_input_scroll ctx val
  | .char c => nk_input_char NK_INPUT_MAX ctx c
  | .glyph g => nk_input_glyph NK_INPUT_MAX ctx g
  | .unicode r => nk_input_unicode NK_INPUT_MAX nk_utf_encode ctx r

/-- The calls `calls`, issued one after the other. -/
def nk_input_calls (NK_INPUT_MAX : Nat) (nk_utf_encode : Nat → List Nat)
    (ctx : nk_context) (calls : List nk_input_call) : nk_context :=
  calls.foldl (nk_input_call.run NK_INPUT_MAX nk_utf_encode) ctx

/-- One input frame: `nk_input_begin`, the calls `calls` in order, `nk_input_end`. -/
def nk_input_frame (NK_INPUT_MAX : Nat) (nk_utf_encode : Nat → List Nat)
    (ctx : nk_context) (calls : List nk_input_call) : nk_context :=
  nk_input_end (nk_input_calls NK_INPUT_MAX nk_utf_encode (nk_input_begin ctx) calls)

/-- The text bytes a call hands over: one for `nk_input_char`, the sequence for
`nk_input_glyph`, the encoding for `nk_input_unicode`, none for the other calls. -/
def nk_input_call.bytes (nk_utf_encode : Nat → List Nat) : nk_input_call → List Nat
  | .char c => [c]
  | .glyph g => g
  | .unicode r => nk_utf_encode r
  | _ => []

/-- All text bytes handed over by a sequence of calls, in call order. -/
def text_bytes (nk_utf_encode : Nat → List Nat) (calls : List nk_input_call) : List Nat :=
  (calls.map (nk_input_call.bytes nk_utf_encode)).flatten

/-- A call that releases the key `key`: `nk_input_key(ctx, key, 0)`. -/
def nk_input_call.releases (key : nk_keys) : nk_input_call → Bool
  | .key k down => decide (k = key) && !down
  | _ => false

/-- Several input frames in a row, each bracketed by `nk_input_begin` and `nk_input_end`. -/
def nk_input_frames (NK_INPUT_MAX : Nat) (nk_utf_encode : Nat → List Nat)
    (ctx : nk_context) (frames : List (List nk_input_call)) : nk_context :=
  frames.foldl (nk_input_frame NK_INPUT_MAX nk_utf_encode) ctx

/-- Modelled from the spec: the append step of the drawing functions
(`nk_command_buffer_push` in the header comment) is not in the header excerpt. Section 4.3:
commands are appended at the end of the queue; when the queue is backed by a fixed-size
buffer and the buffer is exhausted, the append is rejected and the full-buffer condition
is flagged for the conversion step. `nk_command_size` gives the bytes a command takes in
the arena. The boolean tells whether the command was appended. -/
def nk_command_buffer_push (nk_command_size : nk_command → Nat) (ctx : nk_context)
    (cmd : nk_command) : nk_context × Bool :=
  match ctx.allocator with
  | .fixed_block size =>
    if ctx.allocated + nk_command_size cmd ≤ size then
      ({ ctx with
          queue := ctx.queue ++ [cmd]
          allocated := ctx.allocated + nk_command_size cmd }, true)
    else ({ ctx with full := true }, false)
  | _ =>
    ({ ctx with
        queue := ctx.queue ++ [cmd]
        allocated := ctx.allocated + nk_command_size cmd }, true)

/-- A sequence of appends issued in one frame; next to the final context, the list of the
commands that were appended (not rejected), in call order. -/
def nk_command_buffer_push_all (nk_command_size : nk_command → Nat) :
    nk_context → List nk_command → nk_context × List nk_command
  | ctx, [] => (ctx, [])
  | ctx, cmd :: rest =>
    let r := nk_command_buffer_push nk_command_size ctx cmd
    let rs := nk_command_buffer_push_all nk_command_size r.1 rest
    (rs.1, if r.2 then cmd :: rs.2 else rs.2)

/-- Modelled from the spec: the body of `nk__begin` is not in the header excerpt. Section 4.3:
the caller obtains the first command, or the null sentinel when there is none. The pointer
to the command at position `k` of the queue is `k + 1`. -/
def nk__begin (ctx : nk_context) : Nat :=
  if ctx.queue.length = 0 then 0 else 1

/-- Modelled from the spec: the body of `nk__next` is not in the header excerpt. Section 4.3:
the caller advances to the next command, until the null sentinel after the last one. -/
def nk__next (ctx : nk_context) (cmd : Nat) : Nat :=
  if cmd < ctx.queue.length then cmd + 1 else 0

/-- The command a non-null pointer of the queue points to. -/
def nk_command_at (ctx : nk_context) (cmd : Nat) : Option nk_command :=
  if cmd = 0 then none else ctx.queue.get? (cmd - 1)

/-- The traversal `nk_foreach(cmd, ctx) { ... }` of the command queue, whose body records
the command under the iterator. -/
def nk_traverse (fuel : Nat) (ctx : nk_context) : Option (List (Option nk_command)) :=
  nk_foreach nk__begin nk__next ctx (fun seen cmd => seen ++ [nk_command_at ctx cmd]) fuel []

/-- Modelled from the spec: what section 3 calls ageing the input state at a reset. The
current pointer position becomes the previous one and the edge flags of the frame expire,
so that a key that went down in the frame reads as held afterwards. -/
def nk_input_age (i : nk_input) : nk_input :=
  { i with
    mouse_prev := i.mouse_pos
    keys := fun k => { i.keys k with clicked := 0 }
    buttons := fun b => { i.buttons b with clicked := 0 } }

/-- Modelled from the spec: the body of `nk_clear` is not in the header excerpt. Sections 3
and 4.1: reset clears the draw-command queue of the frame and any per-frame scratch
allocations, and ages the input state. -/
def nk_clear (ctx : nk_context) : nk_context :=
  { ctx with
    input := nk_input_age ctx.input
    queue := []
    allocated := 0
    scratch := 0
    full := false }

/-- The call `nk_clear(&ctx)` in a program that still holds converted output: the function
receives the context only. -/
def nk_program.clear (p : nk_program) : nk_program :=
  { p with ctx := nk_clear p.ctx }

/-! ### Vertex conversion -/

/-- The enumeration `enum nk_anti_aliasing`. -/
inductive nk_anti_aliasing where
  | NK_ANTI_ALIASING_OFF
  | NK_ANTI_ALIASING_ON
  deriving DecidableEq, Repr

/-- The type `struct nk_draw_null_texture`; the handle is a number. -/
structure nk_draw_null_texture where
  texture : Nat
  uv : struct_nk_vec2
  deriving DecidableEq, Repr

/-- Modelled from the spec: `struct nk_draw_vertex_layout_element` is not in the header
excerpt. Section 4.4: a layout is a sequence of {semantic, numeric-format, byte-offset}
triples. -/
structure nk_draw_vertex_layout_element where
  semantic : Nat
  format : Nat
  offset : Nat
  deriving DecidableEq, Repr

/-- The type `struct nk_convert_config`; `float` fields are exact rationals and the layout
pointer is the sequence it points to. -/
structure nk_convert_config where
  global_alpha : ℚ
  line_AA : nk_anti_aliasing
  shape_AA : nk_anti_aliasing
  circle_segment_count : Nat
  arc_segment_count : Nat
  curve_segment_count : Nat
  null : nk_draw_null_texture
  vertex_layout : List nk_draw_vertex_layout_element
  vertex_size : Nat
  vertex_alignment : Nat
  deriving DecidableEq, Repr

/-- Modelled from the spec: `struct nk_buffer` is not in the header excerpt. An output
buffer of the conversion: its capacity in bytes (none for a buffer that grows on demand)
and the bytes written to it so far. -/
structure nk_buffer where
  capacity : Option Nat
  memory : List Nat
  deriving DecidableEq, Repr

/-- Modelled from the spec: writing to an output buffer. The bytes are stored after those
already written; a buffer that cannot hold them is left as it is, and the boolean tells
whether they were stored. -/
def nk_buffer_push (b : nk_buffer) (bytes : List Nat) : nk_buffer × Bool :=
  match b.capacity with
  | some size =>
    if b.memory.length + bytes.length ≤ size then
      ({ b with memory := b.memory ++ bytes }, true)
    else (b, false)
  | none => ({ b with memory := b.memory ++ bytes }, true)

/-- What the tessellation of one draw command produces: the bytes of a vertex draw command,
of its vertices and of its vertex indices. -/
structure nk_tessellation where
  cmd : List Nat
  vertices : List Nat
  elements : List Nat
  deriving DecidableEq, Repr

/-- The flag word and the three output buffers while a conversion runs. -/
structure nk_convert_state where
  flags : Nat
  cmds : nk_buffer
  vertices : nk_buffer
  elements : nk_buffer
  deriving DecidableEq, Repr

/-- Modelled from the spec: the conversion of one draw command. Section 4.4: the command is
tessellated under the configuration, and the result goes to the three output buffers, each
of which reports its own exhaustion in the flag word. The tessellation is the parameter
`nk_tessellate`, a function of the configuration, the command and the number of vertex
bytes already written. -/
def nk_convert_command (nk_tessellate : nk_convert_config → nk_command → Nat → nk_tessellation)
    (config : nk_convert_config) (st : nk_convert_state) (cmd : nk_command) :
    nk_convert_state :=
  let t := nk_tessellate config cmd st.vertices.memory.length
  let v := nk_buffer_push st.vertices t.vertices
  let e := nk_buffer_push st.elements t.elements
  let c := nk_buffer_push st.cmds t.cmd
  { flags := st.flags
      ||| (if v.2 then 0 else nk_convert_result.NK_CONVERT_VERTEX_BUFFER_FULL.value)
      ||| (if e.2 then 0 else nk_convert_result.NK_CONVERT_ELEMENT_BUFFER_FULL.value)
      ||| (if c.2 then 0 else nk_convert_result.NK_CONVERT_COMMAND_BUFFER_FULL.value)
    cmds := c.1
    vertices := v.1
    elements := e.1 }

/-- Modelled from the spec: the body of `nk_convert` is not in the header excerpt. Sections
4.3 and 4.4: a null required pointer gives `NK_CONVERT_INVALID_PARAM`; otherwise the
commands of the queue are converted in order, the full-buffer condition of the queue is
reported as `NK_CONVERT_COMMAND_BUFFER_FULL`, and the result is the flag word with the three
buffers as the call leaves them. A pointer is an optional value, none for null. -/
def nk_convert (nk_tessellate : nk_convert_config → nk_command → Nat → nk_tessellation)
    (ctx : Option nk_context) (cmds vertices elements : Option nk_buffer)
    (config : Option nk_convert_config) :
    Nat × Option nk_buffer × Option nk_buffer × Option nk_buffer :=
  match ctx, cmds, vertices, elements, config with
  | some ctx, some cmds, some vertices, some elements, some config =>
    let start : nk_convert_state :=
      { flags :=
          if ctx.full then nk_convert_result.NK_CONVERT_COMMAND_BUFFER_FULL.value
          else nk_convert_result.NK_CONVERT_SUCCESS.value
        cmds := cmds
        vertices := vertices
        elements := elements }
    let st := ctx.queue.foldl (nk_convert_command nk_tessellate config) start
    (st.flags, some st.cmds, some st.vertices, some st.elements)
  | _, _, _, _, _ =>
    (nk_convert_result.NK_CONVERT_INVALID_PARAM.value, cmds, vertices, elements)

end Nuklear

/-! ## Theorems about `example.c` -/

namespace Example

/-- C division by two, in terms of floor division. -/
theorem tdiv_two_eq (a : Int) :
    Int.tdiv a 2 = if 0 ≤ a then a / 2 else -((-a) / 2) := by
  split_ifs with h
  · exact Int.tdiv_eq_ediv h (by decide)
  · have h2 := Int.neg_tdiv (-a) 2
    rw [neg_neg] at h2
    rw [h2, Int.tdiv_eq_ediv (by omega) (by decide)]

/-- C division by two is monotone. -/
theorem tdiv_two_mono {a b : Int} (h : a ≤ b) : Int.tdiv a 2 ≤ Int.tdiv b 2 := by
  rw [tdiv_two_eq a, tdiv_two_eq b]
  split_ifs <;> omega

/-- A larger budget does not change the result of the trial-division loop. -/
theorem trial_loop_mono : ∀ (fuel fuel2 : Nat) (low i flag r : Int), fuel ≤ fuel2 →
    trial_loop fuel low i flag = some r → trial_loop fuel2 low i flag = some r := by
  intro fuel
  induction fuel with
  | zero => intro fuel2 low i flag r _ h; simp [trial_loop] at h
  | succ n ih =>
    intro fuel2 low i flag r hle h
    obtain ⟨m, rfl⟩ : ∃ m, fuel2 = m + 1 := ⟨fuel2 - 1, by omega⟩
    simp only [trial_loop] at h ⊢
    split_ifs at h ⊢ with h1 h2
    · exact h
    · exact ih m low (i + 1) flag r (by omega) h
    · exact h

/-- The trial-division loop ends within `low / 2 + 2 - i` steps. -/
theorem trial_loop_total : ∀ (fuel : Nat) (low i flag : Int),
    (Int.tdiv low 2 + 1 - i).toNat < fuel → ∃ r, trial_loop fuel low i flag = some r := by
  intro fuel
  induction fuel with
  | zero => intro low i flag h; omega
  | succ n ih =>
    intro low i flag h
    simp only [trial_loop]
    split_ifs with h1 h2
    · exact ⟨1, rfl⟩
    · exact ih low (i + 1) flag (by omega)
    · exact ⟨flag, rfl⟩

/-- A larger budget does not change the result of the search loop. -/
theorem search_loop_mono : ∀ (fuel fuel2 : Nat) (low high : Int) (out r : List Int),
    fuel ≤ fuel2 → search_loop fuel low high out = some r →
    search_loop fuel2 low high out = some r := by
  intro fuel
  induction fuel with
  | zero => intro fuel2 low high out r _ h; simp [search_loop] at h
  | succ n ih =>
    intro fuel2 low high out r hle h
    obtain ⟨m, rfl⟩ : ∃ m, fuel2 = m + 1 := ⟨fuel2 - 1, by omega⟩
    simp only [search_loop] at h ⊢
    split_ifs at h ⊢ with h1
    · cases ht : trial_loop n low 2 0 with
      | none => simp [ht] at h
      | some flag =>
        rw [trial_loop_mono n m low 2 0 flag (by omega) ht]
        simp only [ht] at h
        exact ih m (low + 1) high _ r (by omega) h
    · exact h

/-- The search loop ends: a budget of `high - low + high / 2 + 2` steps is enough. -/
theorem search_loop_total : ∀ (fuel : Nat) (low high : Int) (out : List Int),
    (high - low).toNat + (Int.tdiv high 2).toNat + 2 ≤ fuel →
    ∃ r, search_loop fuel low high out = some r := by
  intro fuel
  induction fuel with
  | zero => intro low high out h; omega
  | succ n ih =>
    intro low high out h
    simp only [search_loop]
    split_ifs with h1
    · have hm := tdiv_two_mono (le_of_lt h1)
      obtain ⟨flag, hf⟩ := trial_loop_total n low 2 0 (by omega)
      rw [hf]
      exact ih (low + 1) high _ (by omega)
    · exact ⟨out, rfl⟩

/-- On a number below 2 the trial-division loop runs no iteration and leaves `flag` at 0. -/
theorem trial_loop_small (fuel : Nat) (low : Int) (h : low < 2) :
    trial_loop (fuel + 1) low 2 0 = some 0 := by
  have ht : ¬ (2 : Int) ≤ Int.tdiv low 2 := by
    rw [tdiv_two_eq]
    split_ifs <;> omega
  simp [trial_loop, ht]

/-- On a number `n ≥ 2`, entered at `i` with no divisor of `n` among `2, ..., i - 1`, the
trial-division loop leaves `flag` at 0 when `n` is prime and sets it to 1 when it is not. -/
theorem trial_loop_spec : ∀ (fuel n i : Nat) (r : Int), 2 ≤ n → 2 ≤ i →
    (∀ m : Nat, 2 ≤ m → m < i → ¬ m ∣ n) →
    trial_loop fuel (n : Int) (i : Int) 0 = some r →
    (r = 0 ∧ n.Prime) ∨ (r = 1 ∧ ¬ n.Prime) := by
  intro fuel
  induction fuel with
  | zero => intro n i r _ _ _ h; simp [trial_loop] at h
  | succ f ih =>
    intro n i r hn hi hnone h
    have ht : Int.tdiv (n : Int) 2 = ((n / 2 : Nat) : Int) := by
      rw [Int.tdiv_eq_ediv (Int.ofNat_nonneg n) (by decide)]
      norm_cast
    have hm : Int.tmod (n : Int) (i : Int) = ((n % i : Nat) : Int) := by
      rw [Int.tmod_eq_emod (Int.ofNat_nonneg n) (Int.ofNat_nonneg i)]
      norm_cast
    simp only [trial_loop, ht, hm] at h
    by_cases hle : (i : Int) ≤ ((n / 2 : Nat) : Int)
    · have hle2 : i ≤ n / 2 := by exact_mod_cast hle
      by_cases hdiv : ((n % i : Nat) : Int) = 0
      · simp only [hle, hdiv, if_true] at h
        have hdvd : i ∣ n := Nat.dvd_of_mod_eq_zero (by exact_mod_cast hdiv)
        right
        refine ⟨by simpa using h.symm, fun hp => ?_⟩
        rcases (Nat.dvd_prime hp).1 hdvd with h1 | h1 <;> omega
      · simp only [hle, hdiv, if_true, if_false] at h
        have hcast : ((i : Int) + 1) = ((i + 1 : Nat) : Int) := by push_cast; rfl
        rw [hcast] at h
        refine ih n (i + 1) r hn (by omega) ?_ h
        intro m hm2 hmi hmd
        by_cases hmi2 : m < i
        · exact hnone m hm2 hmi2 hmd
        · have : m = i := by omega
          subst this
          exact hdiv (by exact_mod_cast Nat.mod_eq_zero_of_dvd hmd)
    · simp only [hle, if_false] at h
      have hgt : n / 2 < i := by
        have : ¬ i ≤ n / 2 := fun hc => hle (by exact_mod_cast hc)
        omega
      left
      refine ⟨by simpa using h.symm, ?_⟩
      rw [Nat.prime_def_lt]
      refine ⟨hn, fun m hmn hmd => ?_⟩
      by_contra hne
      have hm0 : m ≠ 0 := by
        rintro rfl
        simp at hmd
        omega
      have hm2 : 2 ≤ m := by omega
      obtain ⟨q, hq⟩ := hmd
      have hq2 : 2 ≤ q := by
        rcases Nat.lt_or_ge q 2 with hq1 | hq1
        · interval_cases q
          · omega
          · omega
        · exact hq1
      have hmle : m ≤ n / 2 := by
        rw [Nat.le_div_iff_mul_le (by decide)]
        calc m * 2 ≤ m * q := Nat.mul_le_mul_left m hq2
          _ = n := hq.symm
      exact hnone m hm2 (by omega) ⟨q, hq⟩

/-- Whether the search loop prints `low`: the value of `flag` after the trial-division loop,
for every number. -/
theorem trial_loop_flag (fuel : Nat) (low r : Int) (h : trial_loop fuel low 2 0 = some r) :
    r = 0 ↔ (low < 2 ∨ Nat.Prime low.toNat) := by
  by_cases hlow : low < 2
  · obtain ⟨f, rfl⟩ : ∃ f, fuel = f + 1 := by
      cases fuel with
      | zero => simp [trial_loop] at h
      | succ f => exact ⟨f, rfl⟩
    rw [trial_loop_small f low hlow] at h
    simp only [Option.some.injEq] at h
    simp [← h, hlow]
  · have hn : (low.toNat : Int) = low := Int.toNat_of_nonneg (by omega)
    rw [← hn] at h
    have := trial_loop_spec fuel low.toNat 2 r (by omega) le_rfl
      (fun m h1 h2 => by omega) (by exact_mod_cast h)
    rcases this with ⟨h1, h2⟩ | ⟨h1, h2⟩
    · simp [h1, h2]
    · simp [h1, h2, hlow]

/-- What the search loop prints: from `low` up to `high - 1`, in increasing order, every
number that is below 2 or prime, and nothing else. -/
theorem search_loop_spec : ∀ (fuel : Nat) (low high : Int) (out r : List Int),
    search_loop fuel low high out = some r →
    r = out ++ (int_range (high - low).toNat low).filter
      (fun n => decide (n < 2 ∨ Nat.Prime n.toNat)) := by
  intro fuel
  induction fuel with
  | zero => intro low high out r h; simp [search_loop] at h
  | succ f ih =>
    intro low high out r h
    simp only [search_loop] at h
    by_cases hlt : low < high
    · simp only [hlt, if_true] at h
      cases ht : trial_loop f low 2 0 with
      | none => simp [ht] at h
      | some flag =>
        simp only [ht] at h
        have hflag := trial_loop_flag f low flag ht
        have hcount : (high - low).toNat = (high - (low + 1)).toNat + 1 := by omega
        rw [ih (low + 1) high _ r h, hcount, int_range]
        by_cases hf : flag = 0
        · have hp := hflag.1 hf
          simp [hf, hp, List.filter_cons]
        · have hp : ¬ (low < 2 ∨ Nat.Prime low.toNat) := fun hc => hf (hflag.2 hc)
          simp [hf, hp, List.filter_cons]
    · simp only [hlt, if_false, Option.some.injEq] at h
      have hcount : (high - low).toNat = 0 := by omega
      simp [← h, hcount, int_range]

/-- The function `determine_primes` returns for every pair of bounds. -/
theorem determine_primes_total (input : prime_input) (low high : Int) :
    ∃ fuel out, determine_primes fuel input low high = some out := by
  by_cases h : low > high
  · obtain ⟨r, hr⟩ := search_loop_total
      ((low - high).toNat + (Int.tdiv low 2).toNat + 2) high low [] le_rfl
    exact ⟨(low - high).toNat + (Int.tdiv low 2).toNat + 2, ⟨high, low, r⟩,
      by simp [determine_primes, h, hr]⟩
  · obtain ⟨r, hr⟩ := search_loop_total
      ((high - low).toNat + (Int.tdiv high 2).toNat + 2) low high [] le_rfl
    exact ⟨(high - low).toNat + (Int.tdiv high 2).toNat + 2, ⟨low, high, r⟩,
      by simp [determine_primes, h, hr]⟩

/-- C1, on the bounds 0 and 3: with any budget of four or more steps `determine_primes`
prints `0 1 2` after the header, which is not the list of the primes `p` with `0 ≤ p < 3`;
that list is `2` alone. -/
theorem determine_primes_prints_zero_and_one (input : prime_input) (k : Nat) :
    determine_primes (4 + k) input 0 3 = some ⟨0, 3, [0, 1, 2]⟩ ∧
    ¬ prime_list_spec 0 3 [0, 1, 2] ∧ prime_list_spec 0 3 [2] := by
  refine ⟨?_, ?_, ?_⟩
  · have h : search_loop 4 0 3 [] = some [0, 1, 2] := by decide
    have h2 := search_loop_mono 4 (4 + k) 0 3 [] _ (by omega) h
    simp [determine_primes, h2]
  · intro h
    have h0 := (h.2 0).1 (by simp)
    exact Nat.not_prime_zero (by simpa using h0.2.2)
  · refine ⟨by simp, fun p => ?_⟩
    constructor
    · intro hp
      have : p = 2 := by simpa using hp
      subst this
      exact ⟨by decide, by decide, by simpa using Nat.prime_two⟩
    · rintro ⟨h1, h2, h3⟩
      have h1 : 0 ≤ p := by simpa using h1
      have h2 : p < 3 := by simpa using h2
      have : p = 0 ∨ p = 1 ∨ p = 2 := by omega
      rcases this with rfl | rfl | rfl
      · exact absurd h3 (by simpa using Nat.not_prime_zero)
      · exact absurd h3 (by simpa using Nat.not_prime_one)
      · simp

/-- C5: the output of `determine_primes` does not depend on its argument, only on the values
of `low` and `high` its body refers to; so the two numbers `main` reads into `input.low` and
`input.high` have no effect on what is printed. Some budget makes both runs return. -/
theorem determine_primes_ignores_input (i1 i2 : prime_input) (low high : Int) :
    (∀ fuel, determine_primes fuel i1 low high = determine_primes fuel i2 low high) ∧
    (∀ fuel x1 y1 x2 y2, main fuel x1 y1 low high = main fuel x2 y2 low high) ∧
    ∃ fuel out, determine_primes fuel i1 low high = some out ∧
      determine_primes fuel i2 low high = some out := by
  refine ⟨fun _ => rfl, fun _ _ _ _ _ => rfl, ?_⟩
  obtain ⟨fuel, out, h⟩ := determine_primes_total i1 low high
  exact ⟨fuel, out, h, h⟩

/-- The members of `int_range count start` are the integers from `start` up to
`start + count - 1`. -/
theorem mem_int_range : ∀ (count : Nat) (start n : Int),
    n ∈ int_range count start ↔ (start ≤ n ∧ n < start + count) := by
  intro count
  induction count with
  | zero => intro start n; simp [int_range]
  | succ c ih =>
    intro start n
    simp only [int_range, List.mem_cons, ih]
    push_cast
    omega

/-- The list `int_range count start` is strictly increasing. -/
theorem int_range_sorted : ∀ (count : Nat) (start : Int),
    (int_range count start).Sorted (· < ·) := by
  intro count
  induction count with
  | zero => intro start; simp [int_range]
  | succ c ih =>
    intro start
    simp only [int_range, List.sorted_cons]
    refine ⟨fun b hb => ?_, ih (start + 1)⟩
    have := (mem_int_range c (start + 1) b).1 hb
    omega

/-- What `determine_primes` prints on bounds already in order: the header shows them, and
the numbers are those from `low` up to `high - 1` that are below 2 or prime, in order. -/
theorem determine_primes_ordered (fuel : Nat) (input : prime_input) (low high : Int)
    (out : Printed) (hle : low ≤ high) (h : determine_primes fuel input low high = some out) :
    out.header_low = low ∧ out.header_high = high ∧
    out.numbers = (int_range (high - low).toNat low).filter
      (fun n => decide (n < 2 ∨ Nat.Prime n.toNat)) := by
  have hgt : ¬ low > high := not_lt.mpr hle
  simp only [determine_primes, hgt, if_false] at h
  cases hs : search_loop fuel low high [] with
  | none => simp [hs] at h
  | some r =>
    simp only [hs, Option.some.injEq] at h
    have := search_loop_spec fuel low high [] r hs
    subst h
    simpa using this

/-- For `n ≥ 2`, some `i` with `2 ≤ i ≤ n / 2` divides `n` exactly when `n` is not prime
(division and remainder as in C). -/
theorem divisor_iff_not_prime (n : Int) (hn : 2 ≤ n) :
    (∃ i : Int, 2 ≤ i ∧ i ≤ Int.tdiv n 2 ∧ Int.tmod n i = 0) ↔ ¬ Nat.Prime n.toNat := by
  obtain ⟨m, rfl⟩ : ∃ m : Nat, n = (m : Int) := ⟨n.toNat, (Int.toNat_of_nonneg (by omega)).symm⟩
  have hm : 2 ≤ m := by exact_mod_cast hn
  have ht : Int.tdiv (m : Int) 2 = ((m / 2 : Nat) : Int) := by
    rw [Int.tdiv_eq_ediv (Int.ofNat_nonneg m) (by decide)]
    norm_cast
  rw [Int.toNat_natCast, ht]
  constructor
  · rintro ⟨i, hi2, hile, hmod⟩ hp
    obtain ⟨j, rfl⟩ : ∃ j : Nat, i = (j : Int) := ⟨i.toNat, (Int.toNat_of_nonneg (by omega)).symm⟩
    have hj2 : 2 ≤ j := by exact_mod_cast hi2
    have hjle : j ≤ m / 2 := by exact_mod_cast hile
    rw [Int.tmod_eq_emod (Int.ofNat_nonneg m) (Int.ofNat_nonneg j)] at hmod
    have hdvd : j ∣ m := Nat.dvd_of_mod_eq_zero (by exact_mod_cast hmod)
    rcases (Nat.dvd_prime hp).1 hdvd with h1 | h1 <;> omega
  · intro hnp
    obtain ⟨j, hjd, hj2, hjm⟩ := Nat.exists_dvd_of_not_prime2 hm hnp
    obtain ⟨q, hq⟩ := hjd
    have hq2 : 2 ≤ q := by
      rcases Nat.lt_or_ge q 2 with hq1 | hq1
      · interval_cases q
        · omega
        · omega
      · exact hq1
    have hjle : j ≤ m / 2 := by
      rw [Nat.le_div_iff_mul_le (by decide)]
      calc j * 2 ≤ j * q := Nat.mul_le_mul_left j hq2
        _ = m := hq.symm
    refine ⟨(j : Int), by exact_mod_cast hj2, by exact_mod_cast hjle, ?_⟩
    rw [Int.tmod_eq_emod (Int.ofNat_nonneg m) (Int.ofNat_nonneg j)]
    have : m % j = 0 := Nat.mod_eq_zero_of_dvd ⟨q, hq⟩
    exact_mod_cast this

/-- C13: for all bounds with `2 ≤ low ≤ high`, `determine_primes` returns, and it prints a
number `n` if and only if `low ≤ n < high` and `n` is prime; for every `n ≥ 2` the trial
division returns, and it sets `flag` to 1 exactly when some `i` with `2 ≤ i ≤ n / 2` divides
`n`, which is exactly when `n` is not prime. -/
theorem determine_primes_from_two (input : prime_input) (low high : Int)
    (hlow : 2 ≤ low) (hle : low ≤ high) :
    (∃ fuel out, determine_primes fuel input low high = some out) ∧
    (∀ fuel out, determine_primes fuel input low high = some out →
      ∀ n : Int, n ∈ out.numbers ↔ (low ≤ n ∧ n < high ∧ Nat.Prime n.toNat)) ∧
    (∀ n : Int, 2 ≤ n →
      (∃ fuel r, trial_loop fuel n 2 0 = some r) ∧
      ∀ fuel r, trial_loop fuel n 2 0 = some r →
        (r = 1 ↔ ∃ i : Int, 2 ≤ i ∧ i ≤ Int.tdiv n 2 ∧ Int.tmod n i = 0) ∧
        (r = 1 ↔ ¬ Nat.Prime n.toNat)) := by
  refine ⟨determine_primes_total input low high, ?_, ?_⟩
  · intro fuel out h n
    obtain ⟨_, _, hnum⟩ := determine_primes_ordered fuel input low high out hle h
    rw [hnum, List.mem_filter, mem_int_range]
    simp only [decide_eq_true_eq]
    constructor
    · rintro ⟨⟨h1, h2⟩, h3⟩
      refine ⟨h1, by omega, ?_⟩
      rcases h3 with h3 | h3
      · omega
      · exact h3
    · rintro ⟨h1, h2, h3⟩
      exact ⟨⟨h1, by omega⟩, Or.inr h3⟩
  · intro n hn
    refine ⟨?_, ?_⟩
    · obtain ⟨r, hr⟩ := trial_loop_total ((Int.tdiv n 2 + 1 - 2).toNat + 1) n 2 0 (by omega)
      exact ⟨_, r, hr⟩
    · intro fuel r hr
      have hflag := trial_loop_flag fuel n r hr
      have hm : (n.toNat : Int) = n := Int.toNat_of_nonneg (by omega)
      have hr2 := hr
      rw [← hm] at hr2
      have hcases := trial_loop_spec fuel n.toNat 2 r (by omega) le_rfl
        (fun m h1 h2 => by omega) (by exact_mod_cast hr2)
      have hprime : r = 1 ↔ ¬ Nat.Prime n.toNat := by
        rcases hcases with ⟨h1, h2⟩ | ⟨h1, h2⟩
        · simp [h1, h2]
        · simp [h1, h2]
      exact ⟨by rw [hprime, divisor_iff_not_prime n hn], hprime⟩

/-- C13 on the bounds 2 and 10. -/
theorem determine_primes_from_two_witness :
    (2 : Int) ≤ 2 ∧ (2 : Int) ≤ 10 ∧
    ((∃ fuel out, determine_primes fuel ⟨0, 0⟩ 2 10 = some out) ∧
    (∀ fuel out, determine_primes fuel ⟨0, 0⟩ 2 10 = some out →
      ∀ n : Int, n ∈ out.numbers ↔ (2 ≤ n ∧ n < 10 ∧ Nat.Prime n.toNat)) ∧
    (∀ n : Int, 2 ≤ n →
      (∃ fuel r, trial_loop fuel n 2 0 = some r) ∧
      ∀ fuel r, trial_loop fuel n 2 0 = some r →
        (r = 1 ↔ ∃ i : Int, 2 ≤ i ∧ i ≤ Int.tdiv n 2 ∧ Int.tmod n i = 0) ∧
        (r = 1 ↔ ¬ Nat.Prime n.toNat))) :=
  ⟨by decide, by decide, determine_primes_from_two ⟨0, 0⟩ 2 10 (by decide) (by decide)⟩

/-- C17: for every integer `n < 2` with `low ≤ n < high`, `determine_primes` returns and
prints `n`: `n / 2 < 2`, so the trial-division loop leaves at its first test, before any
run of its body, with `flag` still 0. -/
theorem determine_primes_prints_below_two (input : prime_input) (low high n : Int)
    (hn : n < 2) (h1 : low ≤ n) (h2 : n < high) :
    (∃ fuel out, determine_primes fuel input low high = some out) ∧
    (∀ fuel out, determine_primes fuel input low high = some out → n ∈ out.numbers) ∧
    Int.tdiv n 2 < 2 ∧
    ∀ fuel, trial_loop (fuel + 1) n 2 0 = some 0 := by
  refine ⟨determine_primes_total input low high, ?_, ?_, fun fuel => trial_loop_small fuel n hn⟩
  · intro fuel out h
    obtain ⟨_, _, hnum⟩ := determine_primes_ordered fuel input low high out (by omega) h
    rw [hnum, List.mem_filter, mem_int_range]
    simp only [decide_eq_true_eq]
    exact ⟨⟨h1, by omega⟩, Or.inl hn⟩
  · rw [tdiv_two_eq]
    split_ifs <;> omega

/-- C17 on the bounds -3 and 5, for the number -1. -/
theorem determine_primes_prints_below_two_witness :
    (-1 : Int) < 2 ∧ (-3 : Int) ≤ -1 ∧ (-1 : Int) < 5 ∧
    ((∃ fuel out, determine_primes fuel ⟨0, 0⟩ (-3) 5 = some out) ∧
    (∀ fuel out, determine_primes fuel ⟨0, 0⟩ (-3) 5 = some out → (-1 : Int) ∈ out.numbers) ∧
    Int.tdiv (-1) 2 < 2 ∧
    ∀ fuel, trial_loop (fuel + 1) (-1) 2 0 = some 0) :=
  ⟨by decide, by decide, by decide,
   determine_primes_prints_below_two ⟨0, 0⟩ (-3) 5 (-1) (by decide) (by decide) (by decide)⟩

/-- Half of an `int` is below `INT_MAX`. -/
theorem tdiv_two_lt_max (low : Int) (h : low ≤ INT_MAX) : Int.tdiv low 2 < INT_MAX := by
  rw [tdiv_two_eq]
  simp only [INT_MAX] at h ⊢
  split_ifs <;> omega

/-- The counted trial-division loop computes what `trial_loop` computes; its body runs at
most `low / 2 + 1 - i` times, and `++i` stays within the `int` range. -/
theorem trial_loop_count_spec : ∀ (fuel : Nat) (low i flag : Int) (iterations : Nat)
    (overflow : Bool) (t : trial_report), low ≤ INT_MAX →
    trial_loop_count fuel low i flag iterations overflow = some t →
    (t.iterations : Int) ≤ iterations + max (Int.tdiv low 2 + 1 - i) 0 ∧
    t.overflow = overflow ∧ trial_loop fuel low i flag = some t.flag := by
  intro fuel
  induction fuel with
  | zero => intro low i flag iterations overflow t _ h; simp [trial_loop_count] at h
  | succ f ih =>
    intro low i flag iterations overflow t hmax h
    simp only [trial_loop_count] at h
    simp only [trial_loop]
    by_cases h1 : i ≤ Int.tdiv low 2
    · by_cases h2 : Int.tmod low i = 0
      · simp only [h1, h2, if_true, Option.some.injEq] at h
        subst h
        simp only [h1, h2, if_true, and_true, true_and]
        push_cast
        omega
      · simp only [h1, h2, if_true, if_false] at h
        have hlt := tdiv_two_lt_max low hmax
        have hno : decide (INT_MAX < i + 1) = false := by
          simp only [decide_eq_false_iff_not]
          omega
        rw [hno, Bool.or_false] at h
        obtain ⟨hi, ho, hf⟩ := ih low (i + 1) flag (iterations + 1) overflow t hmax h
        simp only [h1, h2, if_true, if_false]
        refine ⟨?_, ho, hf⟩
        push_cast at hi
        omega
    · simp only [h1, if_false, Option.some.injEq] at h
      subst h
      simp only [h1, if_false, and_true, true_and]
      omega

/-- The counted trial-division loop returns whenever `trial_loop` does. -/
theorem trial_loop_count_some : ∀ (fuel : Nat) (low i flag r : Int) (iterations : Nat)
    (overflow : Bool), trial_loop fuel low i flag = some r →
    ∃ t, trial_loop_count fuel low i flag iterations overflow = some t := by
  intro fuel
  induction fuel with
  | zero => intro low i flag r iterations overflow h; simp [trial_loop] at h
  | succ f ih =>
    intro low i flag r iterations overflow h
    simp only [trial_loop] at h
    simp only [trial_loop_count]
    by_cases h1 : i ≤ Int.tdiv low 2
    · by_cases h2 : Int.tmod low i = 0
      · simp [h1, h2]
      · simp only [h1, h2, if_true, if_false] at h ⊢
        exact ih low (i + 1) flag r _ _ h
    · simp [h1]

/-- The counted search loop computes what `search_loop` computes; its body runs
`high - low` times (not at all when `high ≤ low`), each time the inner loop body runs at
most `low / 2 - 1` times (not at all when that is negative), and `++i` and `++low` stay
within the `int` range. -/
theorem search_loop_count_spec : ∀ (fuel : Nat) (low high : Int) (report out : search_report),
    high ≤ INT_MAX → search_loop_count fuel low high report = some out →
    out.inner.length = report.inner.length + (high - low).toNat ∧
    (∀ e ∈ out.inner, e ∈ report.inner ∨ (e.2 : Int) ≤ max (Int.tdiv e.1 2 - 1) 0) ∧
    out.overflow = report.overflow ∧
    search_loop fuel low high report.numbers = some out.numbers := by
  intro fuel
  induction fuel with
  | zero => intro low high report out _ h; simp [search_loop_count] at h
  | succ f ih =>
    intro low high report out hmax h
    simp only [search_loop_count] at h
    simp only [search_loop]
    by_cases hlt : low < high
    · simp only [hlt, if_true] at h ⊢
      cases ht : trial_loop_count f low 2 0 0 false with
      | none => simp [ht] at h
      | some t =>
        simp only [ht] at h
        obtain ⟨hi, ho, hf⟩ := trial_loop_count_spec f low 2 0 0 false t (by omega) ht
        have hno : decide (INT_MAX < low + 1) = false := by
          simp only [decide_eq_false_iff_not]
          omega
        rw [ho, hno, Bool.or_false, Bool.or_false] at h
        obtain ⟨h1, h2, h3, h4⟩ := ih (low + 1) high _ out hmax h
        simp only [List.length_append, List.length_singleton] at h1
        rw [hf]
        refine ⟨by omega, ?_, h3, h4⟩
        intro e he
        rcases h2 e he with hmem | hle
        · rcases List.mem_append.1 hmem with hm | hm
          · exact Or.inl hm
          · right
            have : e = (low, t.iterations) := by simpa using hm
            subst this
            simp only
            push_cast at hi
            omega
        · exact Or.inr hle
    · simp only [hlt, if_false, Option.some.injEq] at h ⊢
      subst h
      refine ⟨by omega, fun e he => Or.inl he, rfl, rfl⟩

/-- The counted search loop returns whenever `search_loop` does. -/
theorem search_loop_count_some : ∀ (fuel : Nat) (low high : Int) (numbers r : List Int)
    (report : search_report), search_loop fuel low high numbers = some r →
    ∃ out, search_loop_count fuel low high report = some out := by
  intro fuel
  induction fuel with
  | zero => intro low high numbers r report h; simp [search_loop] at h
  | succ f ih =>
    intro low high numbers r report h
    simp only [search_loop] at h
    simp only [search_loop_count]
    by_cases hlt : low < high
    · simp only [hlt, if_true] at h ⊢
      cases ht : trial_loop f low 2 0 with
      | none => simp [ht] at h
      | some flag =>
        simp only [ht] at h
        obtain ⟨t, hc⟩ := trial_loop_count_some f low 2 0 flag 0 false ht
        rw [hc]
        exact ih (low + 1) high _ r _ h
    · simp [hlt]

/-- C18 as stated fails on the bounds 0 and 1: the search loop body runs once, for
`low = 0`, the inner loop body runs 0 times, and 0 is not at most `0 / 2 - 1`. -/
theorem determine_primes_inner_bound_fails :
    INT_MIN ≤ 0 ∧ (1 : Int) ≤ INT_MAX ∧
    determine_primes_count 2 ⟨0, 0⟩ 0 1 = some (⟨0, 1, [0]⟩, ⟨[0], [(0, 0)], false⟩) ∧
    ¬ (∀ e ∈ [((0 : Int), (0 : Nat))], (e.2 : Int) ≤ Int.tdiv e.1 2 - 1) := by
  refine ⟨by decide, by decide, by decide, ?_⟩
  intro h
  have := h (0, 0) (by simp)
  revert this
  decide

/-- C18, amended: for all bounds in the 32-bit `int` range `determine_primes` returns; after
the swap the outer loop body runs exactly `max (high - low) 0` times, each time the inner
loop body runs at most `max (low / 2 - 1) 0` times, and neither `++low` nor `++i` ever
leaves the `int` range. The counted run prints what `determine_primes` prints. -/
theorem determine_primes_terminates (input : prime_input) (low high : Int)
    (h1 : INT_MIN ≤ low) (h2 : low ≤ INT_MAX) (h3 : INT_MIN ≤ high) (h4 : high ≤ INT_MAX) :
    (∃ fuel r, determine_primes_count fuel input low high = some r) ∧
    ∀ fuel p report, determine_primes_count fuel input low high = some (p, report) →
      determine_primes fuel input low high = some p ∧
      p.header_low = min low high ∧ p.header_high = max low high ∧
      (report.inner.length : Int) = max (p.header_high - p.header_low) 0 ∧
      (∀ e ∈ report.inner, (e.2 : Int) ≤ max (Int.tdiv e.1 2 - 1) 0) ∧
      report.overflow = false := by
  constructor
  · obtain ⟨fuel, out, h⟩ := determine_primes_total input low high
    simp only [determine_primes] at h
    cases hs : search_loop fuel (if low > high then high else low)
        (if low > high then low else high) [] with
    | none => simp [hs] at h
    | some r =>
      obtain ⟨rep, hc⟩ := search_loop_count_some fuel _ _ [] r ⟨[], [], false⟩ hs
      exact ⟨fuel, (⟨if low > high then high else low, if low > high then low else high,
        rep.numbers⟩, rep), by simp only [determine_primes_count, hc]⟩
  · intro fuel p report h
    simp only [determine_primes_count] at h
    cases hc : search_loop_count fuel (if low > high then high else low)
        (if low > high then low else high) ⟨[], [], false⟩ with
    | none => simp [hc] at h
    | some rep =>
      simp only [hc, Option.some.injEq, Prod.mk.injEq] at h
      obtain ⟨hp, hr⟩ := h
      subst hr
      have hmax : (if low > high then low else high) ≤ INT_MAX := by
        split_ifs <;> assumption
      obtain ⟨hlen, hin, hov, hrun⟩ := search_loop_count_spec fuel _ _ _ rep hmax hc
      subst hp
      simp only [List.length_nil, Nat.zero_add] at hlen
      refine ⟨?_, ?_, ?_, ?_, ?_, hov⟩
      · simp only [determine_primes, hrun]
      · simp only
        split_ifs <;> omega
      · simp only
        split_ifs <;> omega
      · simp only [hlen]
        split_ifs <;> omega
      · intro e he
        rcases hin e he with hm | hle
        · simp at hm
        · exact hle

/-- C18, amended, on the bounds 10 and -5. -/
theorem determine_primes_terminates_witness :
    INT_MIN ≤ 10 ∧ (10 : Int) ≤ INT_MAX ∧ INT_MIN ≤ -5 ∧ (-5 : Int) ≤ INT_MAX ∧
    ((∃ fuel r, determine_primes_count fuel ⟨0, 0⟩ 10 (-5) = some r) ∧
    ∀ fuel p report, determine_primes_count fuel ⟨0, 0⟩ 10 (-5) = some (p, report) →
      determine_primes fuel ⟨0, 0⟩ 10 (-5) = some p ∧
      p.header_low = min 10 (-5) ∧ p.header_high = max 10 (-5) ∧
      (report.inner.length : Int) = max (p.header_high - p.header_low) 0 ∧
      (∀ e ∈ report.inner, (e.2 : Int) ≤ max (Int.tdiv e.1 2 - 1) 0) ∧
      report.overflow = false) :=
  ⟨by decide, by decide, by decide, by decide,
   determine_primes_terminates ⟨0, 0⟩ 10 (-5) (by decide) (by decide) (by decide) (by decide)⟩

end Example

/-! ## Theorems about `sample.h` -/

namespace Nuklear

open nk_convert_result in
/-- Setting one more result in a flag word below 16 keeps the word below 16. -/
theorem flag_step_lt (acc : Fin 16) (r : nk_convert_result) : (acc.val ||| r.value) < 16 := by
  revert acc
  cases r <;> decide

open nk_convert_result in
/-- The bit of `f` is set after setting `r` exactly when it was set before or `r` is the
failure `f`. -/
theorem flag_step_and (acc : Fin 16) (r f : nk_convert_result) :
    ((acc.val ||| r.value) &&& f.value ≠ 0) ↔
      (acc.val &&& f.value ≠ 0 ∨ (r = f ∧ f ≠ NK_CONVERT_SUCCESS)) := by
  revert acc
  cases r <;> cases f <;> decide

open nk_convert_result in
/-- A flag word is zero after setting `r` exactly when it was zero and `r` is success. -/
theorem flag_step_zero (acc : Fin 16) (r : nk_convert_result) :
    (acc.val ||| r.value = 0) ↔ (acc.val = 0 ∧ r = NK_CONVERT_SUCCESS) := by
  revert acc
  cases r <;> decide

/-- Folding results into a flag word below 16 characterises the word bit by bit. -/
theorem flags_foldl (S : List nk_convert_result) : ∀ acc : Nat, acc < 16 →
    S.foldl (fun a r => a ||| r.value) acc < 16 ∧
    (S.foldl (fun a r => a ||| r.value) acc = 0 ↔
      (acc = 0 ∧ ∀ r ∈ S, r = nk_convert_result.NK_CONVERT_SUCCESS)) ∧
    ∀ f : nk_convert_result, (S.foldl (fun a r => a ||| r.value) acc &&& f.value ≠ 0 ↔
      (acc &&& f.value ≠ 0 ∨ (f ∈ S ∧ f ≠ nk_convert_result.NK_CONVERT_SUCCESS))) := by
  induction S with
  | nil => intro acc h; simp [h]
  | cons r S ih =>
    intro acc h
    have hlt := flag_step_lt ⟨acc, h⟩ r
    obtain ⟨h1, h2, h3⟩ := ih (acc ||| r.value) hlt
    refine ⟨by simpa using h1, ?_, fun f => ?_⟩
    · simp only [List.foldl_cons, h2, List.mem_cons, forall_eq_or_imp]
      have := flag_step_zero ⟨acc, h⟩ r
      simp only at this
      rw [this]
      tauto
    · simp only [List.foldl_cons, h3 f, List.mem_cons]
      have := flag_step_and ⟨acc, h⟩ r f
      simp only at this
      rw [this, eq_comm (a := r) (b := f)]
      tauto

open nk_convert_result in
/-- C2: `NK_CONVERT_SUCCESS` is 0 and the four failures are the pairwise distinct single bits
1, 2, 4 and 8; so for every collection `S` of results the bitwise OR of `S` is
`NK_CONVERT_SUCCESS` only when `S` holds no failure (for `S` made of failures: only when `S`
is empty), and a failure `f` is in `S` if and only if (OR of `S`) AND `f` is nonzero. -/
theorem nk_convert_result_independent_flags (S : List nk_convert_result) :
    NK_CONVERT_SUCCESS.value = 0 ∧
    NK_CONVERT_INVALID_PARAM.value = 2 ^ 0 ∧
    NK_CONVERT_COMMAND_BUFFER_FULL.value = 2 ^ 1 ∧
    NK_CONVERT_VERTEX_BUFFER_FULL.value = 2 ^ 2 ∧
    NK_CONVERT_ELEMENT_BUFFER_FULL.value = 2 ^ 3 ∧
    Function.Injective nk_convert_result.value ∧
    (nk_convert_flags S = NK_CONVERT_SUCCESS.value ↔ ∀ r ∈ S, r = NK_CONVERT_SUCCESS) ∧
    ((∀ r ∈ S, r ≠ NK_CONVERT_SUCCESS) →
      (nk_convert_flags S = NK_CONVERT_SUCCESS.value ↔ S = [])) ∧
    ∀ f : nk_convert_result,
      (f ∈ S ∧ f ≠ NK_CONVERT_SUCCESS) ↔ nk_convert_flags S &&& f.value ≠ 0 := by
  obtain ⟨_, h2, h3⟩ := flags_foldl S 0 (by decide)
  have hzero : nk_convert_flags S = NK_CONVERT_SUCCESS.value ↔
      ∀ r ∈ S, r = NK_CONVERT_SUCCESS := by
    simpa [nk_convert_flags, nk_convert_result.value] using h2
  refine ⟨rfl, by decide, by decide, by decide, by decide, ?_, hzero, ?_, fun f => ?_⟩
  · intro a b
    cases a <;> cases b <;> decide
  · intro hfail
    rw [hzero]
    constructor
    · intro hall
      cases S with
      | nil => rfl
      | cons r S =>
        exact absurd (hall r (List.mem_cons_self _ _)) (hfail r (List.mem_cons_self _ _))
    · rintro rfl r hr
      simp at hr
  · have := h3 f
    simp only [Nat.zero_and, ne_eq, not_true_eq_false, false_or] at this
    exact this.symm

/-- From position `k` of the chain, `d` steps before its first null, the loop of
`nk_foreach` runs the body on the next `d` elements in order and stops. -/
theorem nk_foreach_loop_chain {Ctx σ : Type} (first_cmd : Ctx → Nat)
    (next_cmd : Ctx → Nat → Nat) (ctx : Ctx) (body : σ → Nat → σ) (n : Nat)
    (hnull : nk_chain first_cmd next_cmd ctx n = 0)
    (hmin : ∀ k, k < n → nk_chain first_cmd next_cmd ctx k ≠ 0) :
    ∀ (d k : Nat) (s : σ) (fuel : Nat), k + d = n → d < fuel →
      nk_foreach_loop next_cmd ctx body fuel (nk_chain first_cmd next_cmd ctx k) s =
        some (List.foldl body s ((List.range' k d).map (nk_chain first_cmd next_cmd ctx))) := by
  intro d
  induction d with
  | zero =>
    intro k s fuel hk hf
    obtain ⟨m, rfl⟩ : ∃ m, fuel = m + 1 := ⟨fuel - 1, by omega⟩
    have : k = n := by omega
    subst this
    simp [nk_foreach_loop, hnull]
  | succ d ih =>
    intro k s fuel hk hf
    obtain ⟨m, rfl⟩ : ∃ m, fuel = m + 1 := ⟨fuel - 1, by omega⟩
    have hne := hmin k (by omega)
    have hstep := ih (k + 1) (body s (nk_chain first_cmd next_cmd ctx k)) m (by omega) (by omega)
    simp only [nk_chain] at hstep
    simp [nk_foreach_loop, hne, hstep, List.range'_succ]

/-- The iteration contract for a chain whose first null is at position `n`. -/
theorem nk_foreach_of_first_null {Ctx σ : Type} (first_cmd : Ctx → Nat)
    (next_cmd : Ctx → Nat → Nat) (ctx : Ctx) (body : σ → Nat → σ) (s : σ) (n : Nat)
    (hnull : nk_chain first_cmd next_cmd ctx n = 0)
    (hmin : ∀ k, k < n → nk_chain first_cmd next_cmd ctx k ≠ 0) (fuel : Nat) (hf : n < fuel) :
    nk_foreach first_cmd next_cmd ctx body fuel s =
      some (List.foldl body s ((List.range n).map (nk_chain first_cmd next_cmd ctx))) := by
  have h := nk_foreach_loop_chain first_cmd next_cmd ctx body n hnull hmin n 0 s fuel
    (by omega) hf
  simpa [nk_foreach, nk_chain, List.range_eq_range'] using h

/-- C3: when the chain `c0 = nk__begin(ctx)`, `c(k+1) = nk__next(ctx, c(k))` reaches null,
it has a first null position `n`, and `nk_foreach` (given more than `n` steps) ends after
running its body on `c0, ..., c(n-1)` in that order and on nothing else; when
`nk__begin(ctx)` is null the body is not run at all. -/
theorem nk_foreach_visits_chain {Ctx σ : Type} (first_cmd : Ctx → Nat)
    (next_cmd : Ctx → Nat → Nat) (ctx : Ctx) (body : σ → Nat → σ) (s : σ)
    (h : ∃ n, nk_chain first_cmd next_cmd ctx n = 0) :
    ∃ n, nk_chain first_cmd next_cmd ctx n = 0 ∧
      (∀ k, k < n → nk_chain first_cmd next_cmd ctx k ≠ 0) ∧
      (∀ fuel, n < fuel → nk_foreach first_cmd next_cmd ctx body fuel s =
        some (List.foldl body s ((List.range n).map (nk_chain first_cmd next_cmd ctx)))) ∧
      (first_cmd ctx = 0 → n = 0 ∧
        ∀ fuel, 0 < fuel → nk_foreach first_cmd next_cmd ctx body fuel s = some s) := by
  classical
  refine ⟨Nat.find h, Nat.find_spec h, fun k hk => Nat.find_min h hk, ?_, ?_⟩
  · intro fuel hf
    exact nk_foreach_of_first_null first_cmd next_cmd ctx body s _ (Nat.find_spec h)
      (fun k hk => Nat.find_min h hk) fuel hf
  · intro h0
    have hz : Nat.find h = 0 := by
      rw [Nat.find_eq_zero]
      exact h0
    refine ⟨hz, fun fuel hf => ?_⟩
    have := nk_foreach_of_first_null first_cmd next_cmd ctx body s 0 h0
      (fun k hk => absurd hk (Nat.not_lt_zero k)) fuel hf
    simpa using this

/-- C3 at a concrete chain: with `nk__begin` returning 3 and `nk__next` counting down, the
chain is 3, 2, 1, null. -/
theorem nk_foreach_visits_chain_witness :
    (∃ n, nk_chain (fun _ : Unit => 3) (fun _ c => c - 1) () n = 0) ∧
    ∃ n, nk_chain (fun _ : Unit => 3) (fun _ c => c - 1) () n = 0 ∧
      (∀ k, k < n → nk_chain (fun _ : Unit => 3) (fun _ c => c - 1) () k ≠ 0) ∧
      (∀ fuel, n < fuel →
        nk_foreach (fun _ : Unit => 3) (fun _ c => c - 1) ()
          (fun (seen : List Nat) c => seen ++ [c]) fuel [] =
        some (List.foldl (fun (seen : List Nat) c => seen ++ [c]) []
          ((List.range n).map (nk_chain (fun _ : Unit => 3) (fun _ c => c - 1) ())))) ∧
      ((fun _ : Unit => 3) () = 0 → n = 0 ∧
        ∀ fuel, 0 < fuel →
          nk_foreach (fun _ : Unit => 3) (fun _ c => c - 1) ()
            (fun (seen : List Nat) c => seen ++ [c]) fuel [] = some []) :=
  ⟨⟨3, by decide⟩,
   nk_foreach_visits_chain (fun _ : Unit => 3) (fun _ c => c - 1) ()
     (fun (seen : List Nat) c => seen ++ [c]) [] ⟨3, by decide⟩⟩

/-- The chain of `nk__begin` / `nk__next` over the command queue: up to the end of the
queue, position `k` holds the pointer to the command at position `k`, and null at the end. -/
theorem nk_chain_queue (ctx : nk_context) :
    ∀ k, k ≤ ctx.queue.length →
      nk_chain nk__begin nk__next ctx k = if k < ctx.queue.length then k + 1 else 0 := by
  intro k
  induction k with
  | zero =>
    intro _
    simp only [nk_chain, nk__begin]
    by_cases h : ctx.queue.length = 0
    · simp [h]
    · have : 0 < ctx.queue.length := Nat.pos_of_ne_zero h
      simp [h, this]
  | succ k ih =>
    intro hk
    have hlt : k < ctx.queue.length := by omega
    simp only [nk_chain, ih (by omega), nk__next, hlt, if_true]

/-- Recording one item per visited pointer yields the items in visiting order. -/
theorem foldl_record {α β : Type} (g : α → β) (l : List α) :
    ∀ init : List β, List.foldl (fun seen c => seen ++ [g c]) init l = init ++ l.map g := by
  induction l with
  | nil => intro init; simp
  | cons a l ih => intro init; simp [ih]

/-- Reading the queue at the positions `0, ..., length - 1` gives back the queue. -/
theorem map_range_get {α : Type} (q : List α) :
    (List.range q.length).map (fun k => q.get? k) = q.map some := by
  apply List.ext_getElem
  · simp
  · intro i h1 h2
    simp at h1
    simp [h1]

/-- Traversing the command queue of any context with `nk_foreach` ends and yields the
commands of the queue, each once, from first to last. -/
theorem nk_traverse_queue (ctx : nk_context) (k : Nat) :
    nk_traverse (ctx.queue.length + 1 + k) ctx = some (ctx.queue.map some) := by
  have hnull : nk_chain nk__begin nk__next ctx ctx.queue.length = 0 := by
    simp [nk_chain_queue ctx _ le_rfl]
  have hmin : ∀ j, j < ctx.queue.length → nk_chain nk__begin nk__next ctx j ≠ 0 := by
    intro j hj
    simp [nk_chain_queue ctx j (le_of_lt hj), hj]
  have h := nk_foreach_of_first_null nk__begin nk__next ctx
    (fun seen cmd => seen ++ [nk_command_at ctx cmd]) [] ctx.queue.length hnull hmin
    (ctx.queue.length + 1 + k) (by omega)
  rw [nk_traverse, h, foldl_record, List.nil_append, List.map_map]
  congr 1
  rw [← map_range_get ctx.queue]
  apply List.map_congr_left
  intro j hj
  have hj : j < ctx.queue.length := by simpa using hj
  simp [nk_chain_queue ctx j (le_of_lt hj), hj, nk_command_at]

/-- A sequence of appends extends the queue by exactly the commands that were appended, in
call order; these form a subsequence of the calls, and the allocator mode and the arena
bookkeeping follow the appended commands. -/
theorem push_all_queue (nk_command_size : nk_command → Nat) :
    ∀ (cmds : List nk_command) (ctx : nk_context),
      (nk_command_buffer_push_all nk_command_size ctx cmds).1.queue =
        ctx.queue ++ (nk_command_buffer_push_all nk_command_size ctx cmds).2 ∧
      ((nk_command_buffer_push_all nk_command_size ctx cmds).2).Sublist cmds ∧
      (nk_command_buffer_push_all nk_command_size ctx cmds).1.allocator = ctx.allocator := by
  intro cmds
  induction cmds with
  | nil => intro ctx; simp [nk_command_buffer_push_all]
  | cons c cmds ih =>
    intro ctx
    simp only [nk_command_buffer_push_all]
    obtain ⟨h1, h2, h3⟩ := ih (nk_command_buffer_push nk_command_size ctx c).1
    rw [h1, h3]
    unfold nk_command_buffer_push
    cases hmode : ctx.allocator with
    | fixed_block size =>
      by_cases hroom : ctx.allocated + nk_command_size c ≤ size
      · simp only [hroom, if_true, List.append_assoc, List.singleton_append, true_and]
        simp only [nk_command_buffer_push, hmode, hroom, if_true] at h2
        exact ⟨List.Sublist.cons₂ c h2, trivial⟩
      · simp only [hroom, if_false, Bool.false_eq_true, true_and]
        simp only [nk_command_buffer_push, hmode, hroom, if_false] at h2
        exact ⟨List.Sublist.cons c h2, trivial⟩
    | default_heap =>
      simp only [if_true, List.append_assoc, List.singleton_append, true_and]
      simp only [nk_command_buffer_push, hmode] at h2
      exact ⟨List.Sublist.cons₂ c h2, trivial⟩
    | custom_callbacks =>
      simp only [if_true, List.append_assoc, List.singleton_append, true_and]
      simp only [nk_command_buffer_push, hmode] at h2
      exact ⟨List.Sublist.cons₂ c h2, trivial⟩

/-- No append is rejected unless the queue is backed by a fixed block that cannot hold all
the commands. -/
theorem push_all_accepts (nk_command_size : nk_command → Nat) :
    ∀ (cmds : List nk_command) (ctx : nk_context),
      (∀ size, ctx.allocator = .fixed_block size →
        ctx.allocated + (cmds.map nk_command_size).sum ≤ size) →
      (nk_command_buffer_push_all nk_command_size ctx cmds).2 = cmds := by
  intro cmds
  induction cmds with
  | nil => intro ctx _; simp [nk_command_buffer_push_all]
  | cons c cmds ih =>
    intro ctx hroom
    simp only [nk_command_buffer_push_all]
    cases hmode : ctx.allocator with
    | fixed_block size =>
      have hr := hroom size hmode
      simp only [List.map_cons, List.sum_cons] at hr
      have hc : ctx.allocated + nk_command_size c ≤ size := by omega
      have hi := ih (nk_command_buffer_push nk_command_size ctx c).1 (by
        intro size2 h2
        simp only [nk_command_buffer_push, hmode, hc, if_true] at h2 ⊢
        cases h2
        omega)
      simp only [nk_command_buffer_push, hmode, hc, if_true] at hi ⊢
      rw [hi]
    | default_heap =>
      have hi := ih (nk_command_buffer_push nk_command_size ctx c).1 (by
        intro size2 h2
        simp [nk_command_buffer_push, hmode] at h2)
      simp only [nk_command_buffer_push, hmode] at hi ⊢
      simp [hi]
    | custom_callbacks =>
      have hi := ih (nk_command_buffer_push nk_command_size ctx c).1 (by
        intro size2 h2
        simp [nk_command_buffer_push, hmode] at h2)
      simp only [nk_command_buffer_push, hmode] at hi ⊢
      simp [hi]

/-- C6: for every sequence `cmds` of appends of any mix of command types issued in one frame
(that is, on a freshly reset context), iterating with `nk__begin` and then `nk__next` until
null ends and yields exactly the commands that were appended, each once, in the order they
were appended. Every call appended its command unless the queue is backed by a fixed block
too small for all of them; an append rejected by an exhausted block leaves no command. -/
theorem nk_traverse_append_order (nk_command_size : nk_command → Nat) (ctx : nk_context)
    (cmds : List nk_command) (k : Nat) :
    nk_traverse
        ((nk_command_buffer_push_all nk_command_size (nk_clear ctx) cmds).2.length + 1 + k)
        (nk_command_buffer_push_all nk_command_size (nk_clear ctx) cmds).1 =
      some ((nk_command_buffer_push_all nk_command_size (nk_clear ctx) cmds).2.map some) ∧
    ((nk_command_buffer_push_all nk_command_size (nk_clear ctx) cmds).2).Sublist cmds ∧
    ((nk_command_buffer_push_all nk_command_size (nk_clear ctx) cmds).2 = cmds ∨
      ∃ size, ctx.allocator = .fixed_block size ∧ size < (cmds.map nk_command_size).sum) := by
  obtain ⟨h1, h2, _⟩ := push_all_queue nk_command_size cmds (nk_clear ctx)
  have hq : (nk_command_buffer_push_all nk_command_size (nk_clear ctx) cmds).1.queue =
      (nk_command_buffer_push_all nk_command_size (nk_clear ctx) cmds).2 := by
    rw [h1]; simp [nk_clear]
  refine ⟨?_, h2, ?_⟩
  · have h := nk_traverse_queue
      (nk_command_buffer_push_all nk_command_size (nk_clear ctx) cmds).1 k
    rw [hq] at h
    exact h
  · by_cases hfit : ∃ size, ctx.allocator = .fixed_block size ∧
        size < (cmds.map nk_command_size).sum
    · exact Or.inr hfit
    · refine Or.inl (push_all_accepts nk_command_size cmds (nk_clear ctx) ?_)
      intro size hsize
      have hsize : ctx.allocator = .fixed_block size := by simpa [nk_clear] using hsize
      have : ¬ size < (cmds.map nk_command_size).sum := fun hlt => hfit ⟨size, hsize, hlt⟩
      simp only [nk_clear]
      omega

/-- No call of the input surface touches the previous pointer position. -/
theorem calls_mouse_prev (NK_INPUT_MAX : Nat) (nk_utf_encode : Nat → List Nat) :
    ∀ (calls : List nk_input_call) (ctx : nk_context),
      (nk_input_calls NK_INPUT_MAX nk_utf_encode ctx calls).input.mouse_prev =
        ctx.input.mouse_prev := by
  intro calls
  induction calls with
  | nil => intro ctx; rfl
  | cons c calls ih =>
    intro ctx
    have h := ih (nk_input_call.run NK_INPUT_MAX nk_utf_encode ctx c)
    simp only [nk_input_calls, List.foldl_cons] at h ⊢
    rw [h]
    cases c <;> rfl

/-- Calls other than `nk_input_motion` leave the current pointer position alone. -/
theorem calls_mouse_pos (NK_INPUT_MAX : Nat) (nk_utf_encode : Nat → List Nat) :
    ∀ (calls : List nk_input_call) (ctx : nk_context),
      (∀ x y, nk_input_call.motion x y ∉ calls) →
      (nk_input_calls NK_INPUT_MAX nk_utf_encode ctx calls).input.mouse_pos =
        ctx.input.mouse_pos := by
  intro calls
  induction calls with
  | nil => intro ctx _; rfl
  | cons c calls ih =>
    intro ctx hno
    have h := ih (nk_input_call.run NK_INPUT_MAX nk_utf_encode ctx c)
      (fun x y hm => hno x y (List.mem_cons_of_mem _ hm))
    simp only [nk_input_calls, List.foldl_cons] at h ⊢
    rw [h]
    cases c with
    | motion x y => exact absurd (List.mem_cons_self _ _) (hno x y)
    | _ => rfl

/-- The frame `pre`, `nk_input_motion(ctx, x, y)`, `post` with no motion call in `post`:
the delta after `nk_input_end` is `(x, y)` minus the position at `nk_input_begin`. -/
theorem frame_delta_last_motion (NK_INPUT_MAX : Nat) (nk_utf_encode : Nat → List Nat)
    (ctx : nk_context) (pre post : List nk_input_call) (x y : Int)
    (hpost : ∀ x2 y2, nk_input_call.motion x2 y2 ∉ post) :
    (nk_input_frame NK_INPUT_MAX nk_utf_encode ctx
        (pre ++ nk_input_call.motion x y :: post)).input.mouse_delta =
      (x - ctx.input.mouse_pos.1, y - ctx.input.mouse_pos.2) := by
  have hprev := calls_mouse_prev NK_INPUT_MAX nk_utf_encode
    (pre ++ nk_input_call.motion x y :: post) (nk_input_begin ctx)
  have hpos := calls_mouse_pos NK_INPUT_MAX nk_utf_encode post
    (nk_input_call.run NK_INPUT_MAX nk_utf_encode
      (nk_input_calls NK_INPUT_MAX nk_utf_encode (nk_input_begin ctx) pre)
      (nk_input_call.motion x y)) hpost
  have hsplit : nk_input_calls NK_INPUT_MAX nk_utf_encode (nk_input_begin ctx)
      (pre ++ nk_input_call.motion x y :: post) =
      nk_input_calls NK_INPUT_MAX nk_utf_encode
        (nk_input_call.run NK_INPUT_MAX nk_utf_encode
          (nk_input_calls NK_INPUT_MAX nk_utf_encode (nk_input_begin ctx) pre)
          (nk_input_call.motion x y)) post := by
    simp [nk_input_calls, List.foldl_append]
  simp only [nk_input_frame, nk_input_end]
  rw [hprev, hsplit, hpos]
  rfl

/-- A sequence of calls that contains a motion call has a last one. -/
theorem exists_last_motion : ∀ calls : List nk_input_call,
    (∃ x y, nk_input_call.motion x y ∈ calls) →
    ∃ pre x y post, calls = pre ++ nk_input_call.motion x y :: post ∧
      ∀ x2 y2, nk_input_call.motion x2 y2 ∉ post := by
  intro calls
  induction calls with
  | nil => rintro ⟨x, y, h⟩; simp at h
  | cons c calls ih =>
    intro h
    by_cases hrest : ∃ x y, nk_input_call.motion x y ∈ calls
    · obtain ⟨pre, x, y, post, heq, hno⟩ := ih hrest
      exact ⟨c :: pre, x, y, post, by rw [heq]; rfl, hno⟩
    · obtain ⟨x, y, hmem⟩ := h
      rcases List.mem_cons.1 hmem with hc | hc
      · exact ⟨[], x, y, calls, by rw [← hc]; rfl, fun x2 y2 h2 => hrest ⟨x2, y2, h2⟩⟩
      · exact absurd ⟨x, y, hc⟩ hrest

/-- C7: every sequence of input calls issued between `nk_input_begin` and `nk_input_end`
that contains at least one `nk_input_motion` call has a last such call,
`nk_input_motion(ctx, x, y)` (calls `pre` of any kind before it, calls `post` other than
motion after it), and the mouse motion delta after `nk_input_end` is `(x, y)` minus the
mouse position at `nk_input_begin`. -/
theorem nk_input_motion_delta (NK_INPUT_MAX : Nat) (nk_utf_encode : Nat → List Nat)
    (ctx : nk_context) (calls : List nk_input_call)
    (h : ∃ x y, nk_input_call.motion x y ∈ calls) :
    ∃ pre x y post, calls = pre ++ nk_input_call.motion x y :: post ∧
      (∀ x2 y2, nk_input_call.motion x2 y2 ∉ post) ∧
      (nk_input_frame NK_INPUT_MAX nk_utf_encode ctx calls).input.mouse_delta =
        (x - ctx.input.mouse_pos.1, y - ctx.input.mouse_pos.2) := by
  obtain ⟨pre, x, y, post, heq, hno⟩ := exists_last_motion calls h
  refine ⟨pre, x, y, post, heq, hno, ?_⟩
  rw [heq]
  exact frame_delta_last_motion NK_INPUT_MAX nk_utf_encode ctx pre post x y hno

/-- C7 on a fresh context: motion to (3, 4), a key press, motion to (10, 20), a character. -/
theorem nk_input_motion_delta_witness :
    (∃ x y, nk_input_call.motion x y ∈
      [nk_input_call.motion 3 4, nk_input_call.key nk_keys.NK_KEY_ENTER true,
        nk_input_call.motion 10 20, nk_input_call.char 65]) ∧
    ∃ pre x y post,
      [nk_input_call.motion 3 4, nk_input_call.key nk_keys.NK_KEY_ENTER true,
        nk_input_call.motion 10 20, nk_input_call.char 65] =
        pre ++ nk_input_call.motion x y :: post ∧
      (∀ x2 y2, nk_input_call.motion x2 y2 ∉ post) ∧
      (nk_input_frame 16 (fun r => [r]) (nk_init_fixed 65536)
        [nk_input_call.motion 3 4, nk_input_call.key nk_keys.NK_KEY_ENTER true,
          nk_input_call.motion 10 20, nk_input_call.char 65]).input.mouse_delta =
        (x - (nk_init_fixed 65536).input.mouse_pos.1,
         y - (nk_init_fixed 65536).input.mouse_pos.2) :=
  ⟨⟨3, 4, by simp⟩,
   nk_input_motion_delta 16 (fun r => [r]) (nk_init_fixed 65536)
     [nk_input_call.motion 3 4, nk_input_call.key nk_keys.NK_KEY_ENTER true,
       nk_input_call.motion 10 20, nk_input_call.char 65] ⟨3, 4, by simp⟩⟩

/-- Appending under a capacity, one chunk after the other, keeps the first bytes of the
concatenation. -/
theorem take_append_step (n : Nat) (b rest : List Nat) :
    b.take n ++ rest.take (n - (b.take n).length) = (b ++ rest).take n := by
  rw [List.take_append_eq_append_take, List.length_take]
  congr 2
  omega

/-- The text buffer after a run of calls: what it held, followed by the first bytes of what
the calls handed over, up to the capacity. -/
theorem calls_text (NK_INPUT_MAX : Nat) (nk_utf_encode : Nat → List Nat) :
    ∀ (calls : List nk_input_call) (ctx : nk_context),
      (nk_input_calls NK_INPUT_MAX nk_utf_encode ctx calls).input.text =
        ctx.input.text ++
          (text_bytes nk_utf_encode calls).take (NK_INPUT_MAX - ctx.input.text.length) := by
  intro calls
  induction calls with
  | nil => intro ctx; simp [nk_input_calls, text_bytes]
  | cons c calls ih =>
    intro ctx
    have h := ih (nk_input_call.run NK_INPUT_MAX nk_utf_encode ctx c)
    simp only [nk_input_calls, List.foldl_cons] at h ⊢
    rw [h]
    have hrun : (nk_input_call.run NK_INPUT_MAX nk_utf_encode ctx c).input.text =
        ctx.input.text ++ (nk_input_call.bytes nk_utf_encode c).take
          (NK_INPUT_MAX - ctx.input.text.length) := by
      cases c <;>
        simp [nk_input_call.run, nk_input_call.bytes, nk_input_motion, nk_input_key,
          nk_input_button, nk_input_scroll, nk_input_char, nk_input_glyph, nk_input_unicode,
          nk_input_text_append]
    rw [hrun]
    simp only [text_bytes, List.map_cons, List.flatten_cons, List.length_append,
      List.append_assoc]
    rw [← take_append_step (NK_INPUT_MAX - ctx.input.text.length)
      (nk_input_call.bytes nk_utf_encode c)]
    congr 2
    congr 1
    omega

/-- C8: in one frame, for every sequence of calls whose text bytes (one per
`nk_input_char`, the sequence of each `nk_input_glyph`, the encoding of each
`nk_input_unicode`) number at least `NK_INPUT_MAX`, the text buffer holds exactly the first
`NK_INPUT_MAX` of those bytes when the calls are done and after `nk_input_end`; it never
holds more than `NK_INPUT_MAX` bytes at any point of the frame, and the calls return no
error (they are total and return the context only). -/
theorem nk_input_text_capacity (NK_INPUT_MAX : Nat) (nk_utf_encode : Nat → List Nat)
    (ctx : nk_context) (calls : List nk_input_call)
    (h : NK_INPUT_MAX ≤ (text_bytes nk_utf_encode calls).length) :
    (nk_input_calls NK_INPUT_MAX nk_utf_encode (nk_input_begin ctx) calls).input.text =
      (text_bytes nk_utf_encode calls).take NK_INPUT_MAX ∧
    (nk_input_frame NK_INPUT_MAX nk_utf_encode ctx calls).input.text =
      (text_bytes nk_utf_encode calls).take NK_INPUT_MAX ∧
    (nk_input_frame NK_INPUT_MAX nk_utf_encode ctx calls).input.text.length = NK_INPUT_MAX ∧
    ∀ n, (nk_input_calls NK_INPUT_MAX nk_utf_encode (nk_input_begin ctx)
        (calls.take n)).input.text.length ≤ NK_INPUT_MAX := by
  have key : ∀ cs : List nk_input_call,
      (nk_input_calls NK_INPUT_MAX nk_utf_encode (nk_input_begin ctx) cs).input.text =
        (text_bytes nk_utf_encode cs).take NK_INPUT_MAX := by
    intro cs
    rw [calls_text]
    simp [nk_input_begin]
  refine ⟨key calls, ?_, ?_, fun n => ?_⟩
  · simpa [nk_input_frame, nk_input_end] using key calls
  · have : (nk_input_frame NK_INPUT_MAX nk_utf_encode ctx calls).input.text =
        (text_bytes nk_utf_encode calls).take NK_INPUT_MAX := by
      simpa [nk_input_frame, nk_input_end] using key calls
    rw [this, List.length_take]
    omega
  · rw [key, List.length_take]
    omega

/-- C8 with a capacity of 4 bytes: a character, a rune encoded on two bytes and a glyph of
three bytes hand over six bytes. -/
theorem nk_input_text_capacity_witness :
    4 ≤ (text_bytes (fun r => [r, r])
      [nk_input_call.char 1, nk_input_call.unicode 7, nk_input_call.glyph [9, 8, 6]]).length ∧
    ((nk_input_calls 4 (fun r => [r, r]) (nk_input_begin (nk_init_fixed 65536))
        [nk_input_call.char 1, nk_input_call.unicode 7,
          nk_input_call.glyph [9, 8, 6]]).input.text =
      (text_bytes (fun r => [r, r])
        [nk_input_call.char 1, nk_input_call.unicode 7,
          nk_input_call.glyph [9, 8, 6]]).take 4 ∧
    (nk_input_frame 4 (fun r => [r, r]) (nk_init_fixed 65536)
        [nk_input_call.char 1, nk_input_call.unicode 7,
          nk_input_call.glyph [9, 8, 6]]).input.text =
      (text_bytes (fun r => [r, r])
        [nk_input_call.char 1, nk_input_call.unicode 7,
          nk_input_call.glyph [9, 8, 6]]).take 4 ∧
    (nk_input_frame 4 (fun r => [r, r]) (nk_init_fixed 65536)
        [nk_input_call.char 1, nk_input_call.unicode 7,
          nk_input_call.glyph [9, 8, 6]]).input.text.length = 4 ∧
    ∀ n, (nk_input_calls 4 (fun r => [r, r]) (nk_input_begin (nk_init_fixed 65536))
        ([nk_input_call.char 1, nk_input_call.unicode 7,
          nk_input_call.glyph [9, 8, 6]].take n)).input.text.length ≤ 4) :=
  ⟨by decide,
   nk_input_text_capacity 4 (fun r => [r, r]) (nk_init_fixed 65536)
     [nk_input_call.char 1, nk_input_call.unicode 7, nk_input_call.glyph [9, 8, 6]]
     (by decide)⟩

/-- A call that does not release `key` keeps it held: down, with no transition. -/
theorem run_keeps_held (NK_INPUT_MAX : Nat) (nk_utf_encode : Nat → List Nat) (key : nk_keys)
    (ctx : nk_context) (c : nk_input_call)
    (hc : nk_input_call.releases key c = false)
    (hheld : ctx.input.keys key = { down := true, clicked := 0 }) :
    (nk_input_call.run NK_INPUT_MAX nk_utf_encode ctx c).input.keys key =
      { down := true, clicked := 0 } := by
  cases c with
  | key k down =>
    by_cases hk : k = key
    · subst hk
      have hd : down = true := by
        cases down
        · simp [nk_input_call.releases] at hc
        · rfl
      subst hd
      simp [nk_input_call.run, nk_input_key, hheld]
    · have hk2 : ¬ key = k := fun h => hk h.symm
      simp [nk_input_call.run, nk_input_key, hk2, hheld]
  | _ => exact hheld

/-- A run of calls none of which releases `key` keeps it held. -/
theorem calls_keep_held (NK_INPUT_MAX : Nat) (nk_utf_encode : Nat → List Nat) (key : nk_keys) :
    ∀ (calls : List nk_input_call) (ctx : nk_context),
      (∀ c ∈ calls, nk_input_call.releases key c = false) →
      ctx.input.keys key = { down := true, clicked := 0 } →
      (nk_input_calls NK_INPUT_MAX nk_utf_encode ctx calls).input.keys key =
        { down := true, clicked := 0 } := by
  intro calls
  induction calls with
  | nil => intro ctx _ h; exact h
  | cons c calls ih =>
    intro ctx hno hheld
    have h := ih (nk_input_call.run NK_INPUT_MAX nk_utf_encode ctx c)
      (fun d hd => hno d (List.mem_cons_of_mem _ hd))
      (run_keeps_held NK_INPUT_MAX nk_utf_encode key ctx c
        (hno c (List.mem_cons_self _ _)) hheld)
    simpa [nk_input_calls] using h

/-- A frame without a release call, entered with `key` down, ends with `key` held. -/
theorem frame_keeps_held (NK_INPUT_MAX : Nat) (nk_utf_encode : Nat → List Nat) (key : nk_keys)
    (ctx : nk_context) (calls : List nk_input_call)
    (hno : ∀ c ∈ calls, nk_input_call.releases key c = false)
    (hdown : (ctx.input.keys key).down = true) :
    (nk_input_frame NK_INPUT_MAX nk_utf_encode ctx calls).input.keys key =
      { down := true, clicked := 0 } := by
  have hbegin : (nk_input_begin ctx).input.keys key = { down := true, clicked := 0 } := by
    simp [nk_input_begin, hdown]
  have h := calls_keep_held NK_INPUT_MAX nk_utf_encode key calls (nk_input_begin ctx) hno hbegin
  simpa [nk_input_frame, nk_input_end] using h

/-- Frames without a release call, entered with `key` down, leave `key` down. -/
theorem frames_keep_down (NK_INPUT_MAX : Nat) (nk_utf_encode : Nat → List Nat) (key : nk_keys) :
    ∀ (frames : List (List nk_input_call)) (ctx : nk_context),
      (∀ f ∈ frames, ∀ c ∈ f, nk_input_call.releases key c = false) →
      (ctx.input.keys key).down = true →
      ((nk_input_frames NK_INPUT_MAX nk_utf_encode ctx frames).input.keys key).down = true := by
  intro frames
  induction frames with
  | nil => intro ctx _ h; exact h
  | cons f frames ih =>
    intro ctx hno hdown
    have hf := frame_keeps_held NK_INPUT_MAX nk_utf_encode key ctx f
      (hno f (List.mem_cons_self _ _)) hdown
    have h := ih (nk_input_frame NK_INPUT_MAX nk_utf_encode ctx f)
      (fun g hg => hno g (List.mem_cons_of_mem _ hg)) (by rw [hf])
    simpa [nk_input_frames] using h

open nk_input_call nk_keys in
/-- C9: with ENTER up when the frame begins, after `nk_input_begin`,
`nk_input_key(ctx, NK_KEY_ENTER, 1)` twice and `nk_input_end` the key ENTER is down with
exactly one transition, the same as after a single call, and reports down-this-frame; after
any number of later frames without a release call of ENTER it is down with no transition,
and reports held. -/
theorem nk_input_key_enter_twice (NK_INPUT_MAX : Nat) (nk_utf_encode : Nat → List Nat)
    (ctx : nk_context) (hup : (ctx.input.keys NK_KEY_ENTER).down = false)
    (later : List (List nk_input_call)) (last : List nk_input_call)
    (hlater : ∀ f ∈ later ++ [last], ∀ c ∈ f, releases NK_KEY_ENTER c = false) :
    (nk_input_frame NK_INPUT_MAX nk_utf_encode ctx
        [key NK_KEY_ENTER true, key NK_KEY_ENTER true]).input.keys NK_KEY_ENTER =
      { down := true, clicked := 1 } ∧
    (nk_input_frame NK_INPUT_MAX nk_utf_encode ctx
        [key NK_KEY_ENTER true]).input.keys NK_KEY_ENTER =
      { down := true, clicked := 1 } ∧
    ((nk_input_frame NK_INPUT_MAX nk_utf_encode ctx
        [key NK_KEY_ENTER true, key NK_KEY_ENTER true]).input.keys NK_KEY_ENTER).report =
      nk_key_report.down_this_frame ∧
    (nk_input_frames NK_INPUT_MAX nk_utf_encode
        (nk_input_frame NK_INPUT_MAX nk_utf_encode ctx
          [key NK_KEY_ENTER true, key NK_KEY_ENTER true])
        (later ++ [last])).input.keys NK_KEY_ENTER =
      { down := true, clicked := 0 } ∧
    ((nk_input_frames NK_INPUT_MAX nk_utf_encode
        (nk_input_frame NK_INPUT_MAX nk_utf_encode ctx
          [key NK_KEY_ENTER true, key NK_KEY_ENTER true])
        (later ++ [last])).input.keys NK_KEY_ENTER).report = nk_key_report.held := by
  have h2 : (nk_input_frame NK_INPUT_MAX nk_utf_encode ctx
      [key NK_KEY_ENTER true, key NK_KEY_ENTER true]).input.keys NK_KEY_ENTER =
      { down := true, clicked := 1 } := by
    simp [nk_input_frame, nk_input_end, nk_input_calls, nk_input_call.run, nk_input_key,
      nk_input_begin, hup]
  have h1 : (nk_input_frame NK_INPUT_MAX nk_utf_encode ctx
      [key NK_KEY_ENTER true]).input.keys NK_KEY_ENTER = { down := true, clicked := 1 } := by
    simp [nk_input_frame, nk_input_end, nk_input_calls, nk_input_call.run, nk_input_key,
      nk_input_begin, hup]
  have hdown := frames_keep_down NK_INPUT_MAX nk_utf_encode NK_KEY_ENTER later
    (nk_input_frame NK_INPUT_MAX nk_utf_encode ctx
      [key NK_KEY_ENTER true, key NK_KEY_ENTER true])
    (fun f hf => hlater f (List.mem_append_left _ hf)) (by rw [h2])
  have hheld := frame_keeps_held NK_INPUT_MAX nk_utf_encode NK_KEY_ENTER
    (nk_input_frames NK_INPUT_MAX nk_utf_encode
      (nk_input_frame NK_INPUT_MAX nk_utf_encode ctx
        [key NK_KEY_ENTER true, key NK_KEY_ENTER true]) later) last
    (hlater last (by simp)) hdown
  have hsplit : nk_input_frames NK_INPUT_MAX nk_utf_encode
      (nk_input_frame NK_INPUT_MAX nk_utf_encode ctx
        [key NK_KEY_ENTER true, key NK_KEY_ENTER true]) (later ++ [last]) =
      nk_input_frame NK_INPUT_MAX nk_utf_encode
        (nk_input_frames NK_INPUT_MAX nk_utf_encode
          (nk_input_frame NK_INPUT_MAX nk_utf_encode ctx
            [key NK_KEY_ENTER true, key NK_KEY_ENTER true]) later) last := by
    simp [nk_input_frames, List.foldl_append]
  refine ⟨h2, h1, ?_, ?_, ?_⟩
  · rw [h2]; rfl
  · rw [hsplit, hheld]
  · rw [hsplit, hheld]; rfl

open nk_input_call nk_keys in
/-- C9 on a fresh context, followed by a frame that repeats the press and moves the mouse
and by a frame with a character. -/
theorem nk_input_key_enter_twice_witness :
    ((nk_init_fixed 65536).input.keys NK_KEY_ENTER).down = false ∧
    (∀ f ∈ [[key NK_KEY_ENTER true, motion 1 2]] ++ [[char 65]], ∀ c ∈ f,
      releases NK_KEY_ENTER c = false) ∧
    ((nk_input_frame 16 (fun r => [r]) (nk_init_fixed 65536)
        [key NK_KEY_ENTER true, key NK_KEY_ENTER true]).input.keys NK_KEY_ENTER =
      { down := true, clicked := 1 } ∧
    (nk_input_frame 16 (fun r => [r]) (nk_init_fixed 65536)
        [key NK_KEY_ENTER true]).input.keys NK_KEY_ENTER =
      { down := true, clicked := 1 } ∧
    ((nk_input_frame 16 (fun r => [r]) (nk_init_fixed 65536)
        [key NK_KEY_ENTER true, key NK_KEY_ENTER true]).input.keys NK_KEY_ENTER).report =
      nk_key_report.down_this_frame ∧
    (nk_input_frames 16 (fun r => [r])
        (nk_input_frame 16 (fun r => [r]) (nk_init_fixed 65536)
          [key NK_KEY_ENTER true, key NK_KEY_ENTER true])
        ([[key NK_KEY_ENTER true, motion 1 2]] ++ [[char 65]])).input.keys NK_KEY_ENTER =
      { down := true, clicked := 0 } ∧
    ((nk_input_frames 16 (fun r => [r])
        (nk_input_frame 16 (fun r => [r]) (nk_init_fixed 65536)
          [key NK_KEY_ENTER true, key NK_KEY_ENTER true])
        ([[key NK_KEY_ENTER true, motion 1 2]] ++ [[char 65]])).input.keys
          NK_KEY_ENTER).report = nk_key_report.held) :=
  ⟨rfl, by decide,
   nk_input_key_enter_twice 16 (fun r => [r]) (nk_init_fixed 65536) rfl
     [[key NK_KEY_ENTER true, motion 1 2]] [char 65] (by decide)⟩

/-- Ageing the input state twice is ageing it once. -/
theorem nk_input_age_idem (i : nk_input) : nk_input_age (nk_input_age i) = nk_input_age i := by
  simp [nk_input_age]

/-- C10: calling `nk_clear` twice with nothing in between leaves the context in the state one
call leaves it in, also seen from a program holding converted output; `nk_clear` on a
context whose command queue is empty leaves the queue as it was, and it never changes the
converted command, vertex and element buffers. -/
theorem nk_clear_idempotent (p : nk_program) :
    nk_clear (nk_clear p.ctx) = nk_clear p.ctx ∧
    p.clear.clear = p.clear ∧
    (p.ctx.queue = [] → p.clear.ctx.queue = p.ctx.queue) ∧
    p.clear.cmds = p.cmds ∧ p.clear.vertices = p.vertices ∧ p.clear.elements = p.elements := by
  have h : nk_clear (nk_clear p.ctx) = nk_clear p.ctx := by
    simp [nk_clear, nk_input_age_idem]
  refine ⟨h, ?_, ?_, rfl, rfl, rfl⟩
  · simp [nk_program.clear, h]
  · intro hq
    simp [nk_program.clear, nk_clear, hq]

/-- C10 on a fresh context next to the output of an earlier conversion. -/
theorem nk_clear_idempotent_witness :
    (nk_init_fixed 65536).queue = [] ∧
    (nk_clear (nk_clear (nk_init_fixed 65536)) = nk_clear (nk_init_fixed 65536) ∧
    (nk_program.mk (nk_init_fixed 65536) [1] [2, 3] [4]).clear.clear =
      (nk_program.mk (nk_init_fixed 65536) [1] [2, 3] [4]).clear ∧
    ((nk_init_fixed 65536).queue = [] →
      (nk_program.mk (nk_init_fixed 65536) [1] [2, 3] [4]).clear.ctx.queue =
        (nk_init_fixed 65536).queue) ∧
    (nk_program.mk (nk_init_fixed 65536) [1] [2, 3] [4]).clear.cmds = [1] ∧
    (nk_program.mk (nk_init_fixed 65536) [1] [2, 3] [4]).clear.vertices = [2, 3] ∧
    (nk_program.mk (nk_init_fixed 65536) [1] [2, 3] [4]).clear.elements = [4]) :=
  ⟨rfl, nk_clear_idempotent (nk_program.mk (nk_init_fixed 65536) [1] [2, 3] [4])⟩

/-- One shift-and-or step doubles the window of bits gathered at each position. -/
theorem smear_step (m s w : Nat)
    (h : ∀ i, s.testBit i = true ↔ ∃ d, d < w ∧ m.testBit (i + d) = true) :
    ∀ i, (s ||| s >>> w).testBit i = true ↔ ∃ d, d < 2 * w ∧ m.testBit (i + d) = true := by
  intro i
  rw [Nat.testBit_or, Nat.testBit_shiftRight, Bool.or_eq_true, h, h]
  constructor
  · rintro (⟨d, hd, hb⟩ | ⟨d, hd, hb⟩)
    · exact ⟨d, by omega, hb⟩
    · refine ⟨w + d, by omega, ?_⟩
      have : i + (w + d) = w + i + d := by omega
      rw [this]
      exact hb
  · rintro ⟨d, hd, hb⟩
    by_cases hdw : d < w
    · exact Or.inl ⟨d, hdw, hb⟩
    · refine Or.inr ⟨d - w, by omega, ?_⟩
      have : w + i + (d - w) = i + d := by omega
      rw [this]
      exact hb

/-- A bit of `m` at or above its bit length is clear. -/
theorem testBit_above_size (m j : Nat) (h : m.size ≤ j) : m.testBit j = false := by
  apply Nat.testBit_lt_two_pow
  calc m < 2 ^ m.size := Nat.lt_size_self m
    _ ≤ 2 ^ j := Nat.pow_le_pow_right (by decide) h

/-- The top bit of a nonzero `m` is set. -/
theorem testBit_top (m : Nat) (hm : 0 < m.size) : m.testBit (m.size - 1) = true := by
  by_contra hb
  have hfalse : m.testBit (m.size - 1) = false := by simpa using hb
  have hall : ∀ i ≥ m.size - 1, m.testBit i = false := by
    intro i hi
    by_cases he : i = m.size - 1
    · rw [he]; exact hfalse
    · exact testBit_above_size m i (by omega)
  have hlt := Nat.lt_pow_two_of_testBit m hall
  have := Nat.size_le.2 hlt
  omega

/-- The five shift-and-or steps of `nk_round_up_pow2` turn a 32-bit value `m` into the
value with all bits below the bit length of `m` set. -/
theorem smear_eq (m s1 s2 s3 s4 s5 : Nat) (hm : m < 2 ^ 32)
    (h1 : s1 = m ||| m >>> 1) (h2 : s2 = s1 ||| s1 >>> 2) (h3 : s3 = s2 ||| s2 >>> 4)
    (h4 : s4 = s3 ||| s3 >>> 8) (h5 : s5 = s4 ||| s4 >>> 16) :
    s5 = 2 ^ m.size - 1 := by
  have b0 : ∀ i, m.testBit i = true ↔ ∃ d, d < 1 ∧ m.testBit (i + d) = true := by
    intro i
    constructor
    · intro h; exact ⟨0, by omega, h⟩
    · rintro ⟨d, hd, h⟩
      have : d = 0 := by omega
      subst this
      exact h
  have b1 := smear_step m m 1 b0
  rw [← h1] at b1
  have b2 := smear_step m s1 2 b1
  rw [← h2] at b2
  have b3 := smear_step m s2 4 b2
  rw [← h3] at b3
  have b4 := smear_step m s3 8 b3
  rw [← h4] at b4
  have b5 := smear_step m s4 16 b4
  rw [← h5] at b5
  have hsize : m.size ≤ 32 := Nat.size_le.2 hm
  apply Nat.eq_of_testBit_eq
  intro i
  rw [Nat.testBit_two_pow_sub_one, Bool.eq_iff_iff, b5, decide_eq_true_eq]
  constructor
  · rintro ⟨d, _, hb⟩
    by_contra hi
    have := testBit_above_size m (i + d) (by omega)
    rw [this] at hb
    exact Bool.false_ne_true hb
  · intro hi
    refine ⟨m.size - 1 - i, by omega, ?_⟩
    have : i + (m.size - 1 - i) = m.size - 1 := by omega
    rw [this]
    exact testBit_top m (by omega)

/-- The function `nk_round_up_pow2` in closed form: two to the bit length of `v - 1`
(computed modulo `2 ^ 32`), again modulo `2 ^ 32`. -/
theorem nk_round_up_pow2_eq (v : Nat) :
    nk_round_up_pow2 v = 2 ^ ((v + 2 ^ 32 - 1) % 2 ^ 32).size % 2 ^ 32 := by
  have hm : (v + 2 ^ 32 - 1) % 2 ^ 32 < 2 ^ 32 := Nat.mod_lt _ (by decide)
  have h := smear_eq ((v + 2 ^ 32 - 1) % 2 ^ 32) _ _ _ _ _ hm rfl rfl rfl rfl rfl
  have hpos : 0 < 2 ^ ((v + 2 ^ 32 - 1) % 2 ^ 32).size := Nat.pow_pos (by decide)
  simp only [nk_round_up_pow2]
  rw [h, Nat.sub_add_cancel hpos]

/-- C16: for every 32-bit unsigned `v` with `1 ≤ v ≤ 2 ^ 31`, `nk_round_up_pow2 v` is a power
of two, is at least `v`, and is at most every power of two that is at least `v`; so it
returns `v` unchanged when `v` is a power of two. -/
theorem nk_round_up_pow2_smallest (v : Nat) (h1 : 1 ≤ v) (h2 : v ≤ 2 ^ 31) :
    (∃ k, nk_round_up_pow2 v = 2 ^ k) ∧
    v ≤ nk_round_up_pow2 v ∧
    (∀ j, v ≤ 2 ^ j → nk_round_up_pow2 v ≤ 2 ^ j) ∧
    ((∃ j, v = 2 ^ j) → nk_round_up_pow2 v = v) := by
  have hm : (v + 2 ^ 32 - 1) % 2 ^ 32 = v - 1 := by omega
  have hsize : (v - 1).size ≤ 31 := Nat.size_le.2 (by omega)
  have hlt : 2 ^ (v - 1).size < 2 ^ 32 :=
    Nat.pow_lt_pow_right (by decide) (by omega)
  have heq : nk_round_up_pow2 v = 2 ^ (v - 1).size := by
    rw [nk_round_up_pow2_eq, hm, Nat.mod_eq_of_lt hlt]
  have hge : v ≤ 2 ^ (v - 1).size := by
    have := Nat.lt_size_self (v - 1)
    omega
  have hmin : ∀ j, v ≤ 2 ^ j → 2 ^ (v - 1).size ≤ 2 ^ j := by
    intro j hj
    apply Nat.pow_le_pow_right (by decide)
    exact Nat.size_le.2 (by omega)
  refine ⟨⟨_, heq⟩, by rw [heq]; exact hge, fun j hj => by rw [heq]; exact hmin j hj, ?_⟩
  rintro ⟨j, hj⟩
  rw [heq]
  have := hmin j (le_of_eq hj)
  omega

/-- C16 at `v = 1000`: the result is 1024. -/
theorem nk_round_up_pow2_smallest_witness :
    1 ≤ 1000 ∧ 1000 ≤ 2 ^ 31 ∧
    ((∃ k, nk_round_up_pow2 1000 = 2 ^ k) ∧
    1000 ≤ nk_round_up_pow2 1000 ∧
    (∀ j, 1000 ≤ 2 ^ j → nk_round_up_pow2 1000 ≤ 2 ^ j) ∧
    ((∃ j, 1000 = 2 ^ j) → nk_round_up_pow2 1000 = 1000)) :=
  ⟨by decide, by decide, nk_round_up_pow2_smallest 1000 (by decide) (by decide)⟩

/-- C19: `nk_round_up_pow2 0 = 0`, and `nk_round_up_pow2 v = 0` for every `v` with
`2 ^ 31 < v < 2 ^ 32`; the result, 0, is not a power of two. -/
theorem nk_round_up_pow2_wraps (v : Nat) (h : v = 0 ∨ (2 ^ 31 < v ∧ v < 2 ^ 32)) :
    nk_round_up_pow2 v = 0 ∧ ∀ k, nk_round_up_pow2 v ≠ 2 ^ k := by
  have hm : 2 ^ 31 ≤ (v + 2 ^ 32 - 1) % 2 ^ 32 := by omega
  have hmlt : (v + 2 ^ 32 - 1) % 2 ^ 32 < 2 ^ 32 := Nat.mod_lt _ (by decide)
  have hsize : ((v + 2 ^ 32 - 1) % 2 ^ 32).size = 32 := by
    have hle : ((v + 2 ^ 32 - 1) % 2 ^ 32).size ≤ 32 := Nat.size_le.2 hmlt
    have hge : 31 < ((v + 2 ^ 32 - 1) % 2 ^ 32).size := Nat.lt_size.2 hm
    omega
  have h0 : nk_round_up_pow2 v = 0 := by
    rw [nk_round_up_pow2_eq, hsize, Nat.mod_self]
  refine ⟨h0, fun k hk => ?_⟩
  rw [h0] at hk
  have hpos : 0 < 2 ^ k := Nat.pow_pos (by decide)
  omega

/-- C19 at `v = 3000000000`. -/
theorem nk_round_up_pow2_wraps_witness :
    (3000000000 = 0 ∨ (2 ^ 31 < 3000000000 ∧ 3000000000 < 2 ^ 32)) ∧
    (nk_round_up_pow2 3000000000 = 0 ∧ ∀ k, nk_round_up_pow2 3000000000 ≠ 2 ^ k) :=
  ⟨by decide, nk_round_up_pow2_wraps 3000000000 (by decide)⟩

/-- C20: for every rectangle `r` and every amount `a`, `nk_shrink_rect r a` and
`nk_pad_rect r (nk_vec2 a a)` are equal, field by field. -/
theorem nk_shrink_rect_eq_pad_rect (r : struct_nk_rect) (a : ℚ) :
    nk_shrink_rect r a = nk_pad_rect r (nk_vec2 a a) ∧
    (nk_shrink_rect r a).x = (nk_pad_rect r (nk_vec2 a a)).x ∧
    (nk_shrink_rect r a).y = (nk_pad_rect r (nk_vec2 a a)).y ∧
    (nk_shrink_rect r a).w = (nk_pad_rect r (nk_vec2 a a)).w ∧
    (nk_shrink_rect r a).h = (nk_pad_rect r (nk_vec2 a a)).h := by
  have h : nk_shrink_rect r a = nk_pad_rect r (nk_vec2 a a) := by
    simp [nk_shrink_rect, nk_pad_rect, nk_vec2]
  exact ⟨h, by rw [h], by rw [h], by rw [h], by rw [h]⟩

/-- A bit set in a flag word stays set when more bits are ORed in. -/
theorem flag_or_keeps (a b f : Nat) (h : a &&& f ≠ 0) : (a ||| b) &&& f ≠ 0 := by
  intro hz
  apply h
  rw [Nat.and_distrib_right] at hz
  apply Nat.eq_of_testBit_eq
  intro i
  have hi := congrArg (fun n => n.testBit i) hz
  simp only [Nat.testBit_or, Nat.zero_testBit, Bool.or_eq_false_iff] at hi
  simp [hi.1]

/-- Writing to an output buffer keeps the bytes already written in front. -/
theorem nk_buffer_push_prefix (b : nk_buffer) (bytes : List Nat) :
    b.memory <+: (nk_buffer_push b bytes).1.memory := by
  unfold nk_buffer_push
  cases b.capacity with
  | none => exact List.prefix_append _ _
  | some size =>
    by_cases h : b.memory.length + bytes.length ≤ size
    · simp only [h, if_true]
      exact List.prefix_append _ _
    · simp only [h, if_false]
      exact List.prefix_rfl

/-- Converting further commands keeps the command-buffer-full bit and keeps the vertices
already written in front of the vertex buffer. -/
theorem nk_convert_fold_keeps
    (nk_tessellate : nk_convert_config → nk_command → Nat → nk_tessellation)
    (config : nk_convert_config) : ∀ (queue : List nk_command) (st : nk_convert_state),
    (st.flags &&& nk_convert_result.NK_CONVERT_COMMAND_BUFFER_FULL.value ≠ 0 →
      (queue.foldl (nk_convert_command nk_tessellate config) st).flags &&&
        nk_convert_result.NK_CONVERT_COMMAND_BUFFER_FULL.value ≠ 0) ∧
    st.vertices.memory <+:
      (queue.foldl (nk_convert_command nk_tessellate config) st).vertices.memory := by
  intro queue
  induction queue with
  | nil => intro st; exact ⟨fun h => h, List.prefix_rfl⟩
  | cons c queue ih =>
    intro st
    obtain ⟨h1, h2⟩ := ih (nk_convert_command nk_tessellate config st c)
    simp only [List.foldl_cons]
    refine ⟨fun h => h1 ?_, List.IsPrefix.trans ?_ h2⟩
    · simp only [nk_convert_command]
      exact flag_or_keeps _ _ _ (flag_or_keeps _ _ _ (flag_or_keeps _ _ _ h))
    · simp only [nk_convert_command]
      exact nk_buffer_push_prefix _ _

/-- A conversion of a queue whose full-buffer condition is flagged returns a result with the
`NK_CONVERT_COMMAND_BUFFER_FULL` bit set. -/
theorem nk_convert_reports_full
    (nk_tessellate : nk_convert_config → nk_command → Nat → nk_tessellation)
    (ctx : nk_context) (hfull : ctx.full = true) (bcmds bvertices belements : nk_buffer)
    (config : nk_convert_config) :
    (nk_convert nk_tessellate (some ctx) (some bcmds) (some bvertices) (some belements)
      (some config)).1 &&& nk_convert_result.NK_CONVERT_COMMAND_BUFFER_FULL.value ≠ 0 := by
  simp only [nk_convert, hfull, if_true]
  exact (nk_convert_fold_keeps nk_tessellate config ctx.queue
    ⟨nk_convert_result.NK_CONVERT_COMMAND_BUFFER_FULL.value, bcmds, bvertices, belements⟩).1
    (by
      show nk_convert_result.NK_CONVERT_COMMAND_BUFFER_FULL.value &&&
        nk_convert_result.NK_CONVERT_COMMAND_BUFFER_FULL.value ≠ 0
      decide)

/-- A conversion leaves the bytes already written to the vertex buffer unchanged, in front
of what it writes. -/
theorem nk_convert_keeps_vertices
    (nk_tessellate : nk_convert_config → nk_command → Nat → nk_tessellation)
    (ctx : nk_context) (bcmds bvertices belements : nk_buffer) (config : nk_convert_config) :
    ∃ v, (nk_convert nk_tessellate (some ctx) (some bcmds) (some bvertices) (some belements)
      (some config)).2.2.1 = some v ∧ bvertices.memory <+: v.memory := by
  simp only [nk_convert]
  exact ⟨_, rfl, (nk_convert_fold_keeps nk_tessellate config ctx.queue
    ⟨if ctx.full then nk_convert_result.NK_CONVERT_COMMAND_BUFFER_FULL.value
      else nk_convert_result.NK_CONVERT_SUCCESS.value, bcmds, bvertices, belements⟩).2⟩

/-- Appends issued when the fixed block has no room for any of the commands are all
rejected: the queue and the arena stay as they were and, if there was such an append, the
full-buffer condition is flagged. -/
theorem push_all_rejects (nk_command_size : nk_command → Nat) (size : Nat) :
    ∀ (more : List nk_command) (ctx : nk_context),
      ctx.allocator = .fixed_block size →
      (∀ c ∈ more, size < ctx.allocated + nk_command_size c) →
      (nk_command_buffer_push_all nk_command_size ctx more).2 = [] ∧
      (nk_command_buffer_push_all nk_command_size ctx more).1.queue = ctx.queue ∧
      (more ≠ [] → (nk_command_buffer_push_all nk_command_size ctx more).1.full = true) ∧
      (ctx.full = true → (nk_command_buffer_push_all nk_command_size ctx more).1.full = true) := by
  intro more
  induction more with
  | nil => intro ctx _ _; simp [nk_command_buffer_push_all]
  | cons c more ih =>
    intro ctx hmode hno
    have hc : ¬ ctx.allocated + nk_command_size c ≤ size := by
      have := hno c (List.mem_cons_self _ _)
      omega
    have hpush : nk_command_buffer_push nk_command_size ctx c =
        ({ ctx with full := true }, false) := by
      simp [nk_command_buffer_push, hmode, hc]
    obtain ⟨h1, h2, _, h4⟩ := ih { ctx with full := true } hmode
      (fun d hd => hno d (List.mem_cons_of_mem _ hd))
    simp only [nk_command_buffer_push_all, hpush]
    exact ⟨by simpa using h1, h2, fun _ => h4 rfl, fun _ => h4 rfl⟩

/-- C12: with a context initialized by `nk_init_fixed` on a block of 64 KB, after appends
`cmds` have used the block up so that none of the further commands `more` fits, every
further append is rejected and leaves the queue as it was, and `nk_convert` returns a
result with the `NK_CONVERT_COMMAND_BUFFER_FULL` bit set, while the bytes already written
to the vertex buffer stay unchanged in front of it. -/
theorem nk_convert_fixed_block_full (nk_command_size : nk_command → Nat)
    (nk_tessellate : nk_convert_config → nk_command → Nat → nk_tessellation)
    (cmds more : List nk_command) (hmore : more ≠ [])
    (hfull : ∀ c ∈ more, 65536 <
      (nk_command_buffer_push_all nk_command_size (nk_init_fixed 65536) cmds).1.allocated +
        nk_command_size c)
    (bcmds bvertices belements : nk_buffer) (config : nk_convert_config) :
    (nk_command_buffer_push_all nk_command_size
      (nk_command_buffer_push_all nk_command_size (nk_init_fixed 65536) cmds).1 more).2 = [] ∧
    (nk_command_buffer_push_all nk_command_size
      (nk_command_buffer_push_all nk_command_size (nk_init_fixed 65536) cmds).1 more).1.queue =
      (nk_command_buffer_push_all nk_command_size (nk_init_fixed 65536) cmds).1.queue ∧
    (nk_convert nk_tessellate
      (some (nk_command_buffer_push_all nk_command_size
        (nk_command_buffer_push_all nk_command_size (nk_init_fixed 65536) cmds).1 more).1)
      (some bcmds) (some bvertices) (some belements) (some config)).1 &&&
        nk_convert_result.NK_CONVERT_COMMAND_BUFFER_FULL.value ≠ 0 ∧
    ∃ v, (nk_convert nk_tessellate
      (some (nk_command_buffer_push_all nk_command_size
        (nk_command_buffer_push_all nk_command_size (nk_init_fixed 65536) cmds).1 more).1)
      (some bcmds) (some bvertices) (some belements) (some config)).2.2.1 = some v ∧
      bvertices.memory <+: v.memory := by
  have hmode : (nk_command_buffer_push_all nk_command_size (nk_init_fixed 65536) cmds).1.allocator
      = .fixed_block 65536 := by
    rw [(push_all_queue nk_command_size cmds (nk_init_fixed 65536)).2.2]
    rfl
  obtain ⟨h1, h2, h3, _⟩ := push_all_rejects nk_command_size 65536 more _ hmode hfull
  have hflag := h3 hmore
  exact ⟨h1, h2, nk_convert_reports_full nk_tessellate _ hflag bcmds bvertices belements config,
    nk_convert_keeps_vertices nk_tessellate _ bcmds bvertices belements config⟩

/-- C12 with commands of 16384 bytes: four fill the block, the fifth and sixth are
rejected; the vertex buffer already held the bytes 7, 7. -/
theorem nk_convert_fixed_block_full_witness :
    ([⟨nk_command_type.NK_COMMAND_RECT, [0, 0, 5, 5], 255, none⟩,
      ⟨nk_command_type.NK_COMMAND_TEXT, [1], 255, none⟩] : List nk_command) ≠ [] ∧
    (∀ c ∈ ([⟨nk_command_type.NK_COMMAND_RECT, [0, 0, 5, 5], 255, none⟩,
        ⟨nk_command_type.NK_COMMAND_TEXT, [1], 255, none⟩] : List nk_command),
      65536 < (nk_command_buffer_push_all (fun _ => 16384) (nk_init_fixed 65536)
        (List.replicate 4 ⟨nk_command_type.NK_COMMAND_LINE, [0, 0, 5, 5], 255, none⟩)).1.allocated
        + (fun _ => 16384) c) ∧
    ((nk_command_buffer_push_all (fun _ => 16384)
      (nk_command_buffer_push_all (fun _ => 16384) (nk_init_fixed 65536)
        (List.replicate 4 ⟨nk_command_type.NK_COMMAND_LINE, [0, 0, 5, 5], 255, none⟩)).1
      [⟨nk_command_type.NK_COMMAND_RECT, [0, 0, 5, 5], 255, none⟩,
        ⟨nk_command_type.NK_COMMAND_TEXT, [1], 255, none⟩]).2 = [] ∧
    (nk_command_buffer_push_all (fun _ => 16384)
      (nk_command_buffer_push_all (fun _ => 16384) (nk_init_fixed 65536)
        (List.replicate 4 ⟨nk_command_type.NK_COMMAND_LINE, [0, 0, 5, 5], 255, none⟩)).1
      [⟨nk_command_type.NK_COMMAND_RECT, [0, 0, 5, 5], 255, none⟩,
        ⟨nk_command_type.NK_COMMAND_TEXT, [1], 255, none⟩]).1.queue =
      (nk_command_buffer_push_all (fun _ => 16384) (nk_init_fixed 65536)
        (List.replicate 4 ⟨nk_command_type.NK_COMMAND_LINE, [0, 0, 5, 5], 255, none⟩)).1.queue ∧
    (nk_convert (fun _ cmd first => ⟨[cmd.color], cmd.geometry.map Int.toNat, [first]⟩)
      (some (nk_command_buffer_push_all (fun _ => 16384)
        (nk_command_buffer_push_all (fun _ => 16384) (nk_init_fixed 65536)
          (List.replicate 4 ⟨nk_command_type.NK_COMMAND_LINE, [0, 0, 5, 5], 255, none⟩)).1
        [⟨nk_command_type.NK_COMMAND_RECT, [0, 0, 5, 5], 255, none⟩,
          ⟨nk_command_type.NK_COMMAND_TEXT, [1], 255, none⟩]).1)
      (some ⟨some 64, []⟩) (some ⟨some 256, [7, 7]⟩) (some ⟨some 128, []⟩)
      (some ⟨1, .NK_ANTI_ALIASING_ON, .NK_ANTI_ALIASING_ON, 22, 22, 22,
        ⟨0, nk_vec2 0 0⟩, [], 20, 4⟩)).1 &&&
        nk_convert_result.NK_CONVERT_COMMAND_BUFFER_FULL.value ≠ 0 ∧
    ∃ v, (nk_convert (fun _ cmd first => ⟨[cmd.color], cmd.geometry.map Int.toNat, [first]⟩)
      (some (nk_command_buffer_push_all (fun _ => 16384)
        (nk_command_buffer_push_all (fun _ => 16384) (nk_init_fixed 65536)
          (List.replicate 4 ⟨nk_command_type.NK_COMMAND_LINE, [0, 0, 5, 5], 255, none⟩)).1
        [⟨nk_command_type.NK_COMMAND_RECT, [0, 0, 5, 5], 255, none⟩,
          ⟨nk_command_type.NK_COMMAND_TEXT, [1], 255, none⟩]).1)
      (some ⟨some 64, []⟩) (some ⟨some 256, [7, 7]⟩) (some ⟨some 128, []⟩)
      (some ⟨1, .NK_ANTI_ALIASING_ON, .NK_ANTI_ALIASING_ON, 22, 22, 22,
        ⟨0, nk_vec2 0 0⟩, [], 20, 4⟩)).2.2.1 = some v ∧
      ([7, 7] : List Nat) <+: v.memory) :=
  ⟨by simp, by decide,
   nk_convert_fixed_block_full (fun _ => 16384)
     (fun _ cmd first => ⟨[cmd.color], cmd.geometry.map Int.toNat, [first]⟩)
     (List.replicate 4 ⟨nk_command_type.NK_COMMAND_LINE, [0, 0, 5, 5], 255, none⟩)
     [⟨nk_command_type.NK_COMMAND_RECT, [0, 0, 5, 5], 255, none⟩,
       ⟨nk_command_type.NK_COMMAND_TEXT, [1], 255, none⟩]
     (by simp) (by decide)
     ⟨some 64, []⟩ ⟨some 256, [7, 7]⟩ ⟨some 128, []⟩
     ⟨1, .NK_ANTI_ALIASING_ON, .NK_ANTI_ALIASING_ON, 22, 22, 22, ⟨0, nk_vec2 0 0⟩, [], 20, 4⟩⟩

/-- The function `nk_sin` over the reals is the polynomial with the coefficients
`nk_sin_coeffs`. -/
theorem nk_sin_eq (x : ℝ) : nk_sin x = poly_eval nk_sin_coeffs x := by
  simp only [nk_sin, nk_sin_coeffs, poly_eval]
  norm_num

/-- The function `nk_cos` over the reals is the polynomial with the coefficients
`nk_cos_coeffs`. -/
theorem nk_cos_eq (x : ℝ) : nk_cos x = poly_eval nk_cos_coeffs x := by
  simp only [nk_cos, nk_cos_coeffs, poly_eval]
  norm_num

/-- The value of a sum of polynomials is the sum of the values. -/
theorem poly_eval_add (p : List ℚ) : ∀ (q : List ℚ) (x : ℝ),
    poly_eval (poly_add p q) x = poly_eval p x + poly_eval q x := by
  induction p with
  | nil => intro q x; simp [poly_add, poly_eval]
  | cons a p ih =>
    intro q x
    cases q with
    | nil => simp [poly_add, poly_eval]
    | cons b q =>
      simp only [poly_add, poly_eval, ih]
      push_cast
      ring

/-- The value of a scaled polynomial is the scaled value. -/
theorem poly_eval_scale (c : ℚ) (p : List ℚ) (x : ℝ) :
    poly_eval (poly_scale c p) x = c * poly_eval p x := by
  induction p with
  | nil => simp [poly_scale, poly_eval]
  | cons a p ih =>
    simp only [poly_scale, List.map_cons, poly_eval] at ih ⊢
    rw [ih]
    push_cast
    ring

/-- The value at `t` of the polynomial recentred at `c` is the value of the polynomial at
`t + c`. -/
theorem poly_eval_shift (p : List ℚ) (c : ℚ) : ∀ t : ℝ,
    poly_eval (poly_shift p c) t = poly_eval p (t + c) := by
  induction p with
  | nil => intro t; simp [poly_shift, poly_eval]
  | cons a p ih =>
    intro t
    simp only [poly_shift, poly_eval_add, poly_eval_scale, poly_eval, ih]
    ring

/-- On `[-r, r]` the absolute value of a polynomial is at most `poly_abs_bound`. -/
theorem poly_abs_bound_sound (p : List ℚ) (r : ℚ) (t : ℝ) (ht : |t| ≤ r) :
    |poly_eval p t| ≤ poly_abs_bound p r := by
  have hr : (0 : ℝ) ≤ r := le_trans (abs_nonneg t) ht
  induction p with
  | nil => simp [poly_eval, poly_abs_bound]
  | cons a p ih =>
    simp only [poly_eval, poly_abs_bound]
    push_cast
    calc |(a : ℝ) + t * poly_eval p t| ≤ |(a : ℝ)| + |t * poly_eval p t| := abs_add _ _
      _ = |(a : ℝ)| + |t| * |poly_eval p t| := by rw [abs_mul]
      _ ≤ |(a : ℝ)| + r * poly_abs_bound p r := by
        have := mul_le_mul ht ih (abs_nonneg _) hr
        linarith

/-- A polynomial that passes `poly_positive_near` is positive on `[c - r, c + r]`. -/
theorem poly_positive_near_sound (p : List ℚ) (c r : ℚ)
    (h : poly_positive_near p c r = true) (x : ℝ) (hx : |x - c| ≤ r) :
    0 < poly_eval p x := by
  have hr : (0 : ℝ) ≤ r := le_trans (abs_nonneg _) hx
  have hs := poly_eval_shift p c (x - c)
  rw [sub_add_cancel] at hs
  rw [← hs]
  unfold poly_positive_near at h
  cases hsh : poly_shift p c with
  | nil => simp [hsh] at h
  | cons a s =>
    simp only [hsh, decide_eq_true_eq] at h
    have hb := poly_abs_bound_sound s r (x - c) hx
    have hcast : (0 : ℝ) < (a : ℝ) - r * poly_abs_bound s r := by exact_mod_cast h
    simp only [poly_eval]
    have h1 : |(x - (c : ℝ)) * poly_eval s (x - c)| ≤ r * poly_abs_bound s r := by
      rw [abs_mul]
      exact mul_le_mul hx hb (abs_nonneg _) hr
    have h2 := neg_abs_le ((x - (c : ℝ)) * poly_eval s (x - c))
    linarith

/-- A polynomial that passes `poly_positive_cover` is positive on `[a, a + n w)`. -/
theorem poly_positive_cover_sound (p : List ℚ) (w : ℚ) (hw : 0 ≤ w) : ∀ (n : Nat) (a : ℚ),
    poly_positive_cover p w n a = true → ∀ x : ℝ, (a : ℝ) ≤ x → x < a + n * w →
    0 < poly_eval p x := by
  have hw2 : (0 : ℝ) ≤ w := by exact_mod_cast hw
  intro n
  induction n with
  | zero =>
    intro a _ x h1 h2
    simp at h2
    linarith
  | succ n ih =>
    intro a h x h1 h2
    simp only [poly_positive_cover, Bool.and_eq_true] at h
    by_cases hx : x ≤ a + w
    · apply poly_positive_near_sound p (a + w / 2) (w / 2) h.1 x
      rw [abs_le]
      push_cast
      constructor <;> linarith
    · apply ih (a + w) h.2 x
      · push_cast; linarith
      · push_cast at h2 ⊢
        linarith

/-- The value of a polynomial whose coefficient list is a concatenation. -/
theorem poly_eval_append (p q : List ℚ) (x : ℝ) :
    poly_eval (p ++ q) x = poly_eval p x + x ^ p.length * poly_eval q x := by
  induction p with
  | nil => simp [poly_eval]
  | cons a p ih =>
    have h : poly_eval ((a :: p) ++ q) x = (a : ℝ) + x * poly_eval (p ++ q) x := rfl
    rw [h, ih]
    simp only [poly_eval, List.length_cons]
    ring

/-- The list `sin_coeffs n` has `2 n` coefficients. -/
theorem sin_coeffs_length (n : Nat) : (sin_coeffs n).length = 2 * n := by
  induction n with
  | zero => rfl
  | succ n ih => simp [sin_coeffs, ih]; ring

/-- The list `cos_coeffs n` has `2 n` coefficients. -/
theorem cos_coeffs_length (n : Nat) : (cos_coeffs n).length = 2 * n := by
  induction n with
  | zero => rfl
  | succ n ih => simp [cos_coeffs, ih]; ring

/-- One more term of the Taylor polynomial of the sine. -/
theorem sin_taylor_succ (n : Nat) (x : ℝ) :
    poly_eval (sin_coeffs (n + 1)) x =
      poly_eval (sin_coeffs n) x + (-1) ^ n * x ^ (2 * n + 1) / ((2 * n + 1).factorial : ℝ) := by
  simp only [sin_coeffs, poly_eval_append, sin_coeffs_length, poly_eval]
  push_cast
  ring

/-- One more term of the Taylor polynomial of the cosine. -/
theorem cos_taylor_succ (n : Nat) (x : ℝ) :
    poly_eval (cos_coeffs (n + 1)) x =
      poly_eval (cos_coeffs n) x + (-1) ^ n * x ^ (2 * n) / ((2 * n).factorial : ℝ) := by
  simp only [cos_coeffs, poly_eval_append, cos_coeffs_length, poly_eval]
  push_cast
  ring

/-- The Taylor polynomials of the sine vanish at 0. -/
theorem sin_taylor_zero (n : Nat) : poly_eval (sin_coeffs n) (0 : ℝ) = 0 := by
  induction n with
  | zero => rfl
  | succ n ih => rw [sin_taylor_succ, ih]; simp

/-- The Taylor polynomials of the cosine take the value 1 at 0. -/
theorem cos_taylor_zero (n : Nat) : poly_eval (cos_coeffs (n + 1)) (0 : ℝ) = 1 := by
  induction n with
  | zero => simp [cos_coeffs, poly_eval]
  | succ n ih => rw [cos_taylor_succ, ih]; simp

/-- The derivative of `c y^(k+1) / (k+1)!` is `c x^k / k!`. -/
theorem hasDerivAt_monomial (c : ℝ) (k : Nat) (x : ℝ) :
    HasDerivAt (fun y : ℝ => c * y ^ (k + 1) / ((k + 1).factorial : ℝ))
      (c * x ^ k / (k.factorial : ℝ)) x := by
  have h1 := ((hasDerivAt_pow (k + 1) x).const_mul c).div_const ((k + 1).factorial : ℝ)
  convert h1 using 1
  rw [Nat.factorial_succ]
  have hf : (k.factorial : ℝ) ≠ 0 := Nat.cast_ne_zero.2 (Nat.factorial_ne_zero _)
  have hn : ((k + 1 : ℕ) : ℝ) ≠ 0 := Nat.cast_ne_zero.2 (Nat.succ_ne_zero _)
  simp only [Nat.add_sub_cancel]
  push_cast
  field_simp
  ring

/-- The derivative of the Taylor polynomial of the sine with `n` terms is the Taylor
polynomial of the cosine with `n` terms. -/
theorem hasDerivAt_sin_taylor (n : Nat) (x : ℝ) :
    HasDerivAt (fun y : ℝ => poly_eval (sin_coeffs n) y) (poly_eval (cos_coeffs n) x) x := by
  induction n with
  | zero =>
    simp only [sin_coeffs, cos_coeffs, poly_eval]
    exact hasDerivAt_const x 0
  | succ n ih =>
    have hfun : (fun y : ℝ => poly_eval (sin_coeffs (n + 1)) y) =
        fun y => poly_eval (sin_coeffs n) y +
          (-1) ^ n * y ^ (2 * n + 1) / ((2 * n + 1).factorial : ℝ) := by
      funext y; exact sin_taylor_succ n y
    rw [hfun, cos_taylor_succ]
    exact ih.add (hasDerivAt_monomial ((-1) ^ n) (2 * n) x)

/-- One more term of the Taylor polynomial of the cosine, with the exponent as a
successor. -/
theorem cos_taylor_succ_succ (n : Nat) (x : ℝ) :
    poly_eval (cos_coeffs (n + 1 + 1)) x =
      poly_eval (cos_coeffs (n + 1)) x +
        (-1) ^ (n + 1) * x ^ (2 * n + 1 + 1) / ((2 * n + 1 + 1).factorial : ℝ) := by
  rw [cos_taylor_succ]
  have h : 2 * (n + 1) = 2 * n + 1 + 1 := by ring
  rw [h]

/-- The derivative of the Taylor polynomial of the cosine with `n + 1` terms is minus the
Taylor polynomial of the sine with `n` terms. -/
theorem hasDerivAt_cos_taylor (n : Nat) (x : ℝ) :
    HasDerivAt (fun y : ℝ => poly_eval (cos_coeffs (n + 1)) y)
      (-(poly_eval (sin_coeffs n) x)) x := by
  induction n with
  | zero =>
    have hfun : (fun y : ℝ => poly_eval (cos_coeffs (0 + 1)) y) = fun _ => (1 : ℝ) := by
      funext y; simp [cos_coeffs, poly_eval]
    rw [hfun]
    simpa [sin_coeffs, poly_eval] using hasDerivAt_const x (1 : ℝ)
  | succ n ih =>
    have hfun : (fun y : ℝ => poly_eval (cos_coeffs (n + 1 + 1)) y) =
        fun y => poly_eval (cos_coeffs (n + 1)) y +
          (-1) ^ (n + 1) * y ^ (2 * n + 1 + 1) / ((2 * n + 1 + 1).factorial : ℝ) := by
      funext y; exact cos_taylor_succ_succ n y
    rw [hfun, sin_taylor_succ]
    have := ih.add (hasDerivAt_monomial ((-1) ^ (n + 1)) (2 * n + 1) x)
    convert this using 1
    rw [pow_succ (-1 : ℝ) n]
    ring

/-- A function that vanishes at 0 and has a nonnegative derivative on the nonnegative
reals is nonnegative there. -/
theorem nonneg_of_deriv_nonneg (g g' : ℝ → ℝ) (hd : ∀ x, HasDerivAt g (g' x) x)
    (h0 : g 0 = 0) (hpos : ∀ x, 0 ≤ x → 0 ≤ g' x) : ∀ x, 0 ≤ x → 0 ≤ g x := by
  intro x hx
  have hmono : MonotoneOn g (Set.Ici 0) := by
    apply monotoneOn_of_deriv_nonneg (convex_Ici 0)
    · exact fun y _ => (hd y).continuousAt.continuousWithinAt
    · exact fun y _ => (hd y).differentiableAt.differentiableWithinAt
    · intro y hy
      rw [interior_Ici] at hy
      rw [(hd y).deriv]
      exact hpos y (le_of_lt hy)
  have := hmono (Set.mem_Ici.2 le_rfl) (Set.mem_Ici.2 hx) hx
  rwa [h0] at this

/-- On the nonnegative reals the Taylor polynomials of cosine and sine bound the functions
alternately from above (odd number of terms) and from below (even number of terms). -/
theorem taylor_alternating (n : Nat) :
    (∀ x : ℝ, 0 ≤ x → 0 ≤ (-1) ^ (n + 1) * (Real.cos x - poly_eval (cos_coeffs (n + 1)) x)) ∧
    (∀ x : ℝ, 0 ≤ x → 0 ≤ (-1) ^ (n + 1) * (Real.sin x - poly_eval (sin_coeffs (n + 1)) x)) := by
  have step_sin : ∀ m : Nat,
      (∀ x : ℝ, 0 ≤ x → 0 ≤ (-1) ^ m * (Real.cos x - poly_eval (cos_coeffs m) x)) →
      ∀ x : ℝ, 0 ≤ x → 0 ≤ (-1) ^ m * (Real.sin x - poly_eval (sin_coeffs m) x) := by
    intro m hc
    apply nonneg_of_deriv_nonneg
      (fun x => (-1) ^ m * (Real.sin x - poly_eval (sin_coeffs m) x))
      (fun x => (-1) ^ m * (Real.cos x - poly_eval (cos_coeffs m) x))
    · intro x
      exact ((Real.hasDerivAt_sin x).sub (hasDerivAt_sin_taylor m x)).const_mul _
    · simp [sin_taylor_zero]
    · exact hc
  induction n with
  | zero =>
    have hc : ∀ x : ℝ, 0 ≤ x →
        0 ≤ (-1) ^ (0 + 1) * (Real.cos x - poly_eval (cos_coeffs (0 + 1)) x) := by
      intro x _
      have h1 : poly_eval (cos_coeffs (0 + 1)) x = 1 := by simp [cos_coeffs, poly_eval]
      rw [h1]
      have := Real.cos_le_one x
      simp only [zero_add, pow_one]
      linarith
    exact ⟨hc, step_sin 1 hc⟩
  | succ n ih =>
    have hc : ∀ x : ℝ, 0 ≤ x →
        0 ≤ (-1) ^ (n + 1 + 1) * (Real.cos x - poly_eval (cos_coeffs (n + 1 + 1)) x) := by
      apply nonneg_of_deriv_nonneg
        (fun x => (-1) ^ (n + 1 + 1) * (Real.cos x - poly_eval (cos_coeffs (n + 1 + 1)) x))
        (fun x => (-1) ^ (n + 1) * (Real.sin x - poly_eval (sin_coeffs (n + 1)) x))
      · intro x
        have h := ((Real.hasDerivAt_cos x).sub (hasDerivAt_cos_taylor (n + 1) x)).const_mul
          ((-1 : ℝ) ^ (n + 1 + 1))
        convert h using 1
        rw [pow_succ (-1 : ℝ) (n + 1)]
        ring
      · simp [cos_taylor_zero]
      · exact ih.2
    exact ⟨hc, step_sin (n + 1 + 1) hc⟩


/-- The polynomial `1/100 - nk_sin + (Taylor polynomial of the sine, 10 terms)` passes the
positivity test on four intervals of width 1.5708 from 0 on. -/
theorem nk_sin_above_check :
    poly_positive_cover
      (poly_add [1 / 100] (poly_add (poly_scale (-1) nk_sin_coeffs) (sin_coeffs 10)))
      (15708 / 10000) 4 0 = true := by
  decide!

/-- The polynomial `1/100 + nk_sin - (Taylor polynomial of the sine, 11 terms)` passes the
positivity test on four intervals of width 1.5708 from 0 on. -/
theorem nk_sin_below_check :
    poly_positive_cover
      (poly_add [1 / 100] (poly_add nk_sin_coeffs (poly_scale (-1) (sin_coeffs 11))))
      (15708 / 10000) 4 0 = true := by
  decide!

/-- The polynomial `1/100 - nk_cos + (Taylor polynomial of the cosine, 12 terms)` passes
the positivity test on eight intervals of width 0.7854 from 0 on. -/
theorem nk_cos_above_check :
    poly_positive_cover
      (poly_add [1 / 100] (poly_add (poly_scale (-1) nk_cos_coeffs) (cos_coeffs 12)))
      (7854 / 10000) 8 0 = true := by
  decide!

/-- The polynomial `1/100 + nk_cos - (Taylor polynomial of the cosine, 11 terms)` passes
the positivity test on eight intervals of width 0.7854 from 0 on. -/
theorem nk_cos_below_check :
    poly_positive_cover
      (poly_add [1 / 100] (poly_add nk_cos_coeffs (poly_scale (-1) (cos_coeffs 11))))
      (7854 / 10000) 8 0 = true := by
  decide!

/-- The number `2 π` is below 6.2832. -/
theorem two_pi_lt : 2 * Real.pi < 62832 / 10000 := by
  have := Real.pi_lt_d6
  linarith

/-- C14: evaluated in exact real arithmetic, the polynomial `nk_sin x` differs from `sin x`
by less than 0.01 for every `x` with `0 ≤ x ≤ 2 π`. -/
theorem nk_sin_close (x : ℝ) (h0 : 0 ≤ x) (h1 : x ≤ 2 * Real.pi) :
    |nk_sin x - Real.sin x| < 1 / 100 := by
  have hx : x < 62832 / 10000 := lt_of_le_of_lt h1 two_pi_lt
  have hA := poly_positive_cover_sound _ (15708 / 10000) (by norm_num) 4 0
    nk_sin_above_check x (by simpa using h0) (by push_cast; linarith)
  have hB := poly_positive_cover_sound _ (15708 / 10000) (by norm_num) 4 0
    nk_sin_below_check x (by simpa using h0) (by push_cast; linarith)
  rw [poly_eval_add, poly_eval_add, poly_eval_scale, ← nk_sin_eq] at hA hB
  have hc : poly_eval [1 / 100] x = 1 / 100 := by simp [poly_eval]
  rw [hc] at hA hB
  have hL := (taylor_alternating 9).2 x h0
  have hU := (taylor_alternating 10).2 x h0
  norm_num at hL hU hA hB
  rw [abs_lt]
  constructor <;> linarith

/-- C15: evaluated in exact real arithmetic, the polynomial `nk_cos x` differs from `cos x`
by less than 0.01 for every `x` with `0 ≤ x ≤ 2 π`. -/
theorem nk_cos_close (x : ℝ) (h0 : 0 ≤ x) (h1 : x ≤ 2 * Real.pi) :
    |nk_cos x - Real.cos x| < 1 / 100 := by
  have hx : x < 62832 / 10000 := lt_of_le_of_lt h1 two_pi_lt
  have hA := poly_positive_cover_sound _ (7854 / 10000) (by norm_num) 8 0
    nk_cos_above_check x (by simpa using h0) (by push_cast; linarith)
  have hB := poly_positive_cover_sound _ (7854 / 10000) (by norm_num) 8 0
    nk_cos_below_check x (by simpa using h0) (by push_cast; linarith)
  rw [poly_eval_add, poly_eval_add, poly_eval_scale, ← nk_cos_eq] at hA hB
  have hc : poly_eval [1 / 100] x = 1 / 100 := by simp [poly_eval]
  rw [hc] at hA hB
  have hL := (taylor_alternating 11).1 x h0
  have hU := (taylor_alternating 10).1 x h0
  norm_num at hL hU hA hB
  rw [abs_lt]
  constructor <;> linarith

/-- C14 at `x = 1`. -/
theorem nk_sin_close_witness :
    (0 : ℝ) ≤ 1 ∧ (1 : ℝ) ≤ 2 * Real.pi ∧ |nk_sin (1 : ℝ) - Real.sin 1| < 1 / 100 :=
  ⟨by norm_num, by linarith [Real.pi_gt_three],
   nk_sin_close 1 (by norm_num) (by linarith [Real.pi_gt_three])⟩

/-- C15 at `x = 3`. -/
theorem nk_cos_close_witness :
    (0 : ℝ) ≤ 3 ∧ (3 : ℝ) ≤ 2 * Real.pi ∧ |nk_cos (3 : ℝ) - Real.cos 3| < 1 / 100 :=
  ⟨by norm_num, by linarith [Real.pi_gt_three],
   nk_cos_close 3 (by norm_num) (by linarith [Real.pi_gt_three])⟩

/-- The macro `NK_MAX` returns at least its second argument. -/
theorem NK_MAX_ge_right (a b : ℚ) : b ≤ NK_MAX a b := by
  unfold NK_MAX
  split_ifs with h
  · exact le_rfl
  · exact not_lt.1 h

/-- The macro `NK_MAX` returns at least its first argument. -/
theorem NK_MAX_ge_left (a b : ℚ) : a ≤ NK_MAX a b := by
  unfold NK_MAX
  split_ifs with h
  · exact le_of_lt h
  · exact le_rfl

/-- C21: in exact arithmetic, for every rectangle `r`, every amount `a` of either sign and
every `pad`, the rectangles `nk_shrink_rect r a` and `nk_pad_rect r pad` have width and
height at least 0: each size is first clamped to at least twice the amount, then twice the
amount is subtracted. -/
theorem nk_shrink_pad_nonneg (r : struct_nk_rect) (a : ℚ) (pad : struct_nk_vec2) :
    0 ≤ (nk_shrink_rect r a).w ∧ 0 ≤ (nk_shrink_rect r a).h ∧
    0 ≤ (nk_pad_rect r pad).w ∧ 0 ≤ (nk_pad_rect r pad).h ∧
    (nk_shrink_rect r a).w = NK_MAX r.w (2 * a) - 2 * a ∧
    (nk_shrink_rect r a).h = NK_MAX r.h (2 * a) - 2 * a ∧
    (nk_pad_rect r pad).w = NK_MAX r.w (2 * pad.x) - 2 * pad.x ∧
    (nk_pad_rect r pad).h = NK_MAX r.h (2 * pad.y) - 2 * pad.y := by
  have h1 := NK_MAX_ge_right r.w (2 * a)
  have h2 := NK_MAX_ge_right r.h (2 * a)
  have h3 := NK_MAX_ge_right r.w (2 * pad.x)
  have h4 := NK_MAX_ge_right r.h (2 * pad.y)
  refine ⟨?_, ?_, ?_, ?_, rfl, rfl, rfl, rfl⟩
  · show 0 ≤ NK_MAX r.w (2 * a) - 2 * a
    linarith
  · show 0 ≤ NK_MAX r.h (2 * a) - 2 * a
    linarith
  · show 0 ≤ NK_MAX r.w (2 * pad.x) - 2 * pad.x
    linarith
  · show 0 ≤ NK_MAX r.h (2 * pad.y) - 2 * pad.y
    linarith

/-- The bit length of `2 ^ k - 1` is `k`. -/
theorem size_two_pow_sub_one (k : Nat) : (2 ^ k - 1).size = k := by
  have hpos : 0 < 2 ^ k := Nat.pow_pos (by decide)
  have hle : (2 ^ k - 1).size ≤ k := Nat.size_le.2 (by omega)
  cases k with
  | zero => exact Nat.le_zero.1 hle
  | succ j =>
    have hge : j < (2 ^ (j + 1) - 1).size := by
      apply Nat.lt_size.2
      have : 2 ^ (j + 1) = 2 * 2 ^ j := by ring
      have hj : 0 < 2 ^ j := Nat.pow_pos (by decide)
      omega
    omega

/-- C22: the function `nk_round_up_pow2` is idempotent on every value, so on every 32-bit
unsigned `v`, the wrapping inputs 0 and `v > 2 ^ 31` included. -/
theorem nk_round_up_pow2_idempotent (v : Nat) :
    nk_round_up_pow2 (nk_round_up_pow2 v) = nk_round_up_pow2 v := by
  have hm : (v + 2 ^ 32 - 1) % 2 ^ 32 < 2 ^ 32 := Nat.mod_lt _ (by decide)
  have hsize : ((v + 2 ^ 32 - 1) % 2 ^ 32).size ≤ 32 := Nat.size_le.2 hm
  rw [nk_round_up_pow2_eq v]
  generalize ((v + 2 ^ 32 - 1) % 2 ^ 32).size = k at hsize
  rw [nk_round_up_pow2_eq]
  by_cases hk : k = 32
  · subst hk
    have h0 : (2 ^ 32 % 2 ^ 32 + 2 ^ 32 - 1) % 2 ^ 32 = 2 ^ 32 - 1 := by decide
    rw [h0, size_two_pow_sub_one]
  · have hk31 : k ≤ 31 := by omega
    have hlt : 2 ^ k < 2 ^ 32 := Nat.pow_lt_pow_right (by decide) (by omega)
    have hpos : 0 < 2 ^ k := Nat.pow_pos (by decide)
    rw [Nat.mod_eq_of_lt hlt]
    have hpre : (2 ^ k + 2 ^ 32 - 1) % 2 ^ 32 = 2 ^ k - 1 := by omega
    rw [hpre, size_two_pow_sub_one, Nat.mod_eq_of_lt hlt]

/-- C23: in exact arithmetic, for every rectangle `r` with `r.w ≥ 0` and `r.h ≥ 0` and every
amount `a ≥ 0`, the rectangle `nk_shrink_rect r a` lies inside `r` if and only if `a ≤ r.w`
and `a ≤ r.h`; when `r` is narrower than the amount the result has width 0 and starts to the
right of `r`, and when `r` is lower than the amount the result has height 0 and starts
below `r`. -/
theorem nk_shrink_rect_inside (r : struct_nk_rect) (a : ℚ)
    (hw : 0 ≤ r.w) (hh : 0 ≤ r.h) (ha : 0 ≤ a) :
    ((r.x ≤ (nk_shrink_rect r a).x ∧
      (nk_shrink_rect r a).x + (nk_shrink_rect r a).w ≤ r.x + r.w ∧
      r.y ≤ (nk_shrink_rect r a).y ∧
      (nk_shrink_rect r a).y + (nk_shrink_rect r a).h ≤ r.y + r.h) ↔
      (a ≤ r.w ∧ a ≤ r.h)) ∧
    (r.w < a → (nk_shrink_rect r a).w = 0 ∧ r.x + r.w < (nk_shrink_rect r a).x) ∧
    (r.h < a → (nk_shrink_rect r a).h = 0 ∧ r.y + r.h < (nk_shrink_rect r a).y) := by
  have ex : (nk_shrink_rect r a).x = r.x + a := rfl
  have ey : (nk_shrink_rect r a).y = r.y + a := rfl
  have ew : (nk_shrink_rect r a).w = NK_MAX r.w (2 * a) - 2 * a := rfl
  have eh : (nk_shrink_rect r a).h = NK_MAX r.h (2 * a) - 2 * a := rfl
  rw [ex, ey, ew, eh]
  have hwl := NK_MAX_ge_left r.w (2 * a)
  have hwr := NK_MAX_ge_right r.w (2 * a)
  have hhl := NK_MAX_ge_left r.h (2 * a)
  have hhr := NK_MAX_ge_right r.h (2 * a)
  have hwcase : NK_MAX r.w (2 * a) = r.w ∨ NK_MAX r.w (2 * a) = 2 * a := by
    unfold NK_MAX
    split_ifs
    · exact Or.inr rfl
    · exact Or.inl rfl
  have hhcase : NK_MAX r.h (2 * a) = r.h ∨ NK_MAX r.h (2 * a) = 2 * a := by
    unfold NK_MAX
    split_ifs
    · exact Or.inr rfl
    · exact Or.inl rfl
  refine ⟨⟨?_, ?_⟩, ?_, ?_⟩
  · rintro ⟨_, h2, _, h4⟩
    constructor <;> linarith
  · rintro ⟨h1, h2⟩
    refine ⟨by linarith, ?_, by linarith, ?_⟩
    · rcases hwcase with h | h <;> rw [h] <;> linarith
    · rcases hhcase with h | h <;> rw [h] <;> linarith
  · intro hlt
    have h : NK_MAX r.w (2 * a) = 2 * a := by
      rcases hwcase with h | h
      · linarith
      · exact h
    rw [h]
    constructor <;> linarith
  · intro hlt
    have h : NK_MAX r.h (2 * a) = 2 * a := by
      rcases hhcase with h | h
      · linarith
      · exact h
    rw [h]
    constructor <;> linarith

/-- C23 on the rectangle of width 1 and height 5 at the origin, shrunk by 2: the amount
exceeds the width, so the result is not inside; it has width 0 and starts at x = 2. -/
theorem nk_shrink_rect_inside_witness :
    (0 : ℚ) ≤ (nk_rect 0 0 1 5).w ∧ (0 : ℚ) ≤ (nk_rect 0 0 1 5).h ∧ (0 : ℚ) ≤ 2 ∧
    ((((nk_rect 0 0 1 5).x ≤ (nk_shrink_rect (nk_rect 0 0 1 5) 2).x ∧
      (nk_shrink_rect (nk_rect 0 0 1 5) 2).x + (nk_shrink_rect (nk_rect 0 0 1 5) 2).w ≤
        (nk_rect 0 0 1 5).x + (nk_rect 0 0 1 5).w ∧
      (nk_rect 0 0 1 5).y ≤ (nk_shrink_rect (nk_rect 0 0 1 5) 2).y ∧
      (nk_shrink_rect (nk_rect 0 0 1 5) 2).y + (nk_shrink_rect (nk_rect 0 0 1 5) 2).h ≤
        (nk_rect 0 0 1 5).y + (nk_rect 0 0 1 5).h) ↔
      ((2 : ℚ) ≤ (nk_rect 0 0 1 5).w ∧ (2 : ℚ) ≤ (nk_rect 0 0 1 5).h)) ∧
    ((nk_rect 0 0 1 5).w < 2 → (nk_shrink_rect (nk_rect 0 0 1 5) 2).w = 0 ∧
      (nk_rect 0 0 1 5).x + (nk_rect 0 0 1 5).w < (nk_shrink_rect (nk_rect 0 0 1 5) 2).x) ∧
    ((nk_rect 0 0 1 5).h < 2 → (nk_shrink_rect (nk_rect 0 0 1 5) 2).h = 0 ∧
      (nk_rect 0 0 1 5).y + (nk_rect 0 0 1 5).h < (nk_shrink_rect (nk_rect 0 0 1 5) 2).y)) :=
  ⟨by decide, by decide, by decide,
   nk_shrink_rect_inside (nk_rect 0 0 1 5) 2 (by decide) (by decide) (by decide)⟩

/-- C24: for every 32-bit pattern `i` with the sign bit clear, the seed
`0x5f375A84 - (i >> 1)` computed in `nk_inv_sqrt` does not wrap below zero and lies between
`0x1F375A85` and `0x5f375A84` inclusive (both attained, at the patterns `2 ^ 31 - 1` and 0);
its sign bit is 0 and its exponent field is between 62 and 190, so it is the bit pattern of
a positive, finite, normal IEEE-754 single. -/
theorem nk_inv_sqrt_seed_normal (i : Nat) (h32 : i < 2 ^ 32) (hsign : float_sign i = 0) :
    i >>> 1 ≤ 0x5f375A84 ∧
    nk_inv_sqrt_seed i = 0x5f375A84 - (i >>> 1) ∧
    0x1F375A85 ≤ nk_inv_sqrt_seed i ∧ nk_inv_sqrt_seed i ≤ 0x5f375A84 ∧
    nk_inv_sqrt_seed (2 ^ 31 - 1) = 0x1F375A85 ∧ nk_inv_sqrt_seed 0 = 0x5f375A84 ∧
    float_sign (nk_inv_sqrt_seed i) = 0 ∧
    62 ≤ float_exponent (nk_inv_sqrt_seed i) ∧ float_exponent (nk_inv_sqrt_seed i) ≤ 190 ∧
    float_positive_normal (nk_inv_sqrt_seed i) := by
  have hi : i < 2 ^ 31 := by
    simp only [float_sign, Nat.shiftRight_eq_div_pow] at hsign
    omega
  have hshift : i >>> 1 = i / 2 := by
    rw [Nat.shiftRight_eq_div_pow]
  have hseed : nk_inv_sqrt_seed i = 0x5f375A84 - i / 2 := by
    simp only [nk_inv_sqrt_seed, hshift]
    omega
  have hlo : 0x1F375A85 ≤ nk_inv_sqrt_seed i := by rw [hseed]; omega
  have hhi : nk_inv_sqrt_seed i ≤ 0x5f375A84 := by rw [hseed]; omega
  have hs : float_sign (nk_inv_sqrt_seed i) = 0 := by
    simp only [float_sign, Nat.shiftRight_eq_div_pow]
    omega
  have he1 : 62 ≤ float_exponent (nk_inv_sqrt_seed i) := by
    simp only [float_exponent, Nat.shiftRight_eq_div_pow]
    omega
  have he2 : float_exponent (nk_inv_sqrt_seed i) ≤ 190 := by
    simp only [float_exponent, Nat.shiftRight_eq_div_pow]
    omega
  refine ⟨by rw [hshift]; omega, by rw [hseed, hshift], hlo, hhi, by decide, by decide,
    hs, he1, he2, hs, by omega, by omega⟩

/-- C24 at the bit pattern of +infinity, `0x7f800000`. -/
theorem nk_inv_sqrt_seed_normal_witness :
    0x7f800000 < 2 ^ 32 ∧ float_sign 0x7f800000 = 0 ∧
    (0x7f800000 >>> 1 ≤ 0x5f375A84 ∧
    nk_inv_sqrt_seed 0x7f800000 = 0x5f375A84 - (0x7f800000 >>> 1) ∧
    0x1F375A85 ≤ nk_inv_sqrt_seed 0x7f800000 ∧ nk_inv_sqrt_seed 0x7f800000 ≤ 0x5f375A84 ∧
    nk_inv_sqrt_seed (2 ^ 31 - 1) = 0x1F375A85 ∧ nk_inv_sqrt_seed 0 = 0x5f375A84 ∧
    float_sign (nk_inv_sqrt_seed 0x7f800000) = 0 ∧
    62 ≤ float_exponent (nk_inv_sqrt_seed 0x7f800000) ∧
    float_exponent (nk_inv_sqrt_seed 0x7f800000) ≤ 190 ∧
    float_positive_normal (nk_inv_sqrt_seed 0x7f800000)) :=
  ⟨by decide, by decide, nk_inv_sqrt_seed_normal 0x7f800000 (by decide) (by decide)⟩

end Nuklear
